import Mathlib

/-!
Shallow embedding of the dependency-ordered bulk-insert collector of
`factory/django.py` (class `Collector`, methods `add`, `add_dependency`,
`collect`, `sort`) and of the two `mute_signals` context managers
(`factory/django.py` and `factory/django/utils.py`).

Conventions of the embedding:
* Python object identity (`id(obj)`) is a natural number `Oid`; two pending
  records are the same record exactly when their `Oid`s are equal.
* A model class is a natural number `MId`.  The schema reflection that Django
  provides (`_meta.concrete_model`, the list of forward `ForeignKey` fields
  returned by `get_candidate_relations_to_delete`, each field's `null` flag and
  target model) lives in a `World` structure, together with the per-object
  data (`__class__`, truthiness of `pk`, the value of each FK attribute).
* `self.data` is an insertion-ordered dictionary, embedded as an association
  list; `defaultdict` access appends a fresh `(key, [])` entry at the end.
* `self.dependencies` is a `defaultdict(set)`; only membership and emptiness
  of the sets are ever consumed, so each set is embedded as a duplicate-free
  insertion-ordered list.
* The module-level `logger` is only ever invoked by `mute_signals`; the
  `Collector` methods never log, which the embedding records by threading a
  `log` component that no collector operation touches.
* Exceptions escaping `collect` are modelled with `Except`: iterating the
  `None` returned by a recursive `collect` call raises `TypeError`, embedded
  as `CErr.typeErr`.  The recursion is fuelled; exhausted fuel is the distinct
  `CErr.fuel` (Python has no fuel, but every terminating run is reproduced by
  a large enough fuel).
-/

abbrev Oid := Nat
abbrev MId := Nat

/-- Boolean membership in a list of naturals (Python `in` on a list of ids). -/
def elemB (x : Nat) : List Nat → Bool
  | [] => false
  | y :: ys => if x = y then true else elemB x ys

/-- Python `set.add`: append the element if it is not already present. -/
def setInsert (l : List Nat) (x : Nat) : List Nat :=
  if elemB x l then l else l ++ [x]

/-- Dictionary read with default `[]`: the bucket of `self.data[model]` and the
dependency set `self.dependencies.get(k)` are both consumed only through this
view (`None` and the empty collection behave identically at every use site). -/
def lookupA (d : List (Nat × List Nat)) (k : Nat) : List Nat :=
  match d with
  | [] => []
  | (k2, v) :: rest => if k2 = k then v else lookupA rest k

/-- Whether a dictionary has the key. -/
def hasKey (d : List (Nat × List Nat)) (k : Nat) : Bool :=
  match d with
  | [] => false
  | (k2, _) :: rest => if k2 = k then true else hasKey rest k

/-- `defaultdict` access / `dict.setdefault`: materialise the key with an empty
value at the end of the dictionary if it is absent. -/
def ensureKey (d : List (Nat × List Nat)) (k : Nat) : List (Nat × List Nat) :=
  if hasKey d k then d else d ++ [(k, [])]

/-- Overwrite the value stored under an existing key (in-place mutation of the
list object held by the dictionary); appends when the key is absent. -/
def setA (d : List (Nat × List Nat)) (k : Nat) (v : List Nat) :
    List (Nat × List Nat) :=
  match d with
  | [] => [(k, v)]
  | (k2, v2) :: rest => if k2 = k then (k2, v) :: rest else (k2, v2) :: setA rest k v

/-- `self.dependencies[k].add(v)` on a `defaultdict(set)`. -/
def depAdd (d : List (Nat × List Nat)) (k v : Nat) : List (Nat × List Nat) :=
  match d with
  | [] => [(k, [v])]
  | (k2, s) :: rest =>
    if k2 = k then (k2, setInsert s v) :: rest else (k2, s) :: depAdd rest k v

/-- The reflection interface and the fixed graph of pending records.

`cls`, `pk` and `ref` describe the records (`obj.__class__`, truthiness of
`obj.pk`, `getattr(obj, field)`); `fkFields` is the list of forward FK fields
of a model in declaration order (`get_candidate_relations_to_delete`),
`fkNull` each field's `null` flag, `fkTarget` each field's related model, and
`concrete` is `model._meta.concrete_model`. -/
structure World where
  cls : Oid → MId
  pk : Oid → Bool
  ref : Oid → Nat → Option Oid
  fkFields : MId → List Nat
  fkNull : MId → Nat → Bool
  fkTarget : MId → Nat → MId
  concrete : MId → MId

/-- The mutable state of a `Collector`: `self.data`, `self.dependencies` and
the (never written) log of the module logger. -/
structure Collector where
  data : List (MId × List Oid)
  dependencies : List (MId × List MId)
  log : List String
deriving DecidableEq

/-- A fresh `Collector('default')`. -/
def Collector.empty : Collector := ⟨[], [], []⟩

/-- `Collector.add_dependency(model, dependency, reverse_dependency)`:
swap when reversed, record the edge between concrete models, and
`setdefault` the dependency itself into `self.data`. -/
def Collector.addDependency (w : World) (c : Collector) (model dependency : MId)
    (revDep : Bool) : Collector :=
  let m := if revDep then dependency else model
  let d := if revDep then model else dependency
  { c with
    dependencies := depAdd c.dependencies (w.concrete m) (w.concrete d)
    data := ensureKey c.data d }

/-- `Collector.add(objs, source, nullable, reverse_dependency)`: skip records
with a truthy `pk`, deduplicate against the identity lookup of the bucket
snapshot taken before extending, extend the bucket, and record a dependency
edge when a `source` is given and the relation is not nullable.  Returns the
newly added records together with the new state. -/
def Collector.add (w : World) (c : Collector) (objs : List Oid)
    (source : Option MId) (nullable : Bool) (revDep : Bool) :
    List Oid × Collector :=
  match objs with
  | [] => ([], c)
  | o0 :: _ =>
    let model := w.cls o0
    let data1 := ensureKey c.data model
    let instances := lookupA data1 model
    let newObjs := objs.filter (fun o => !w.pk o && !elemB o instances)
    let c2 : Collector := { c with data := setA data1 model (instances ++ newObjs) }
    let c3 := match source with
      | none => c2
      | some src => if nullable then c2 else Collector.addDependency w c2 src model revDep
    (newObjs, c3)

/-- Exceptions escaping `Collector.collect`. -/
inductive CErr where
  | typeErr
  | fuel
deriving DecidableEq

/-- `Collector.collect(objs, source, nullable, ...)`.  It calls `add`, stops
when nothing new was added, and then loops over the FK fields of the class of
the first new record.  The loop body gathers the truthy field values of the
new records, recurses with the current model as `source` (never forwarding the
field's `null` flag) and rebinds `new_objs` to the recursive call's return
value, which is `None`; consequently a second FK field iterates over `None`
and raises `TypeError`. -/
def Collector.collect (w : World) :
    Nat → Collector → List Oid → Option MId → Bool → Except CErr Collector
  | 0, _, _, _, _ => .error CErr.fuel
  | Nat.succ fuel, c, objs, source, nullable =>
    match Collector.add w c objs source nullable false with
    | ([], c1) => .ok c1
    | (o :: news, c1) =>
      match w.fkFields (w.cls o) with
      | [] => .ok c1
      | f :: frest =>
        let collected := (o :: news).filterMap (fun x => w.ref x f)
        match Collector.collect w fuel c1 collected (some (w.cls o)) false with
        | .error e => .error e
        | .ok c2 => if frest.isEmpty then .ok c2 else .error CErr.typeErr

/-- The sortability test of one model inside `Collector.sort`:
`not (dependencies and dependencies.difference(concrete_models))` for
`dependencies = self.dependencies.get(model._meta.concrete_model)`
(`None`, the empty set, and a fully resolved set all pass). -/
def canSort (deps : List (MId × List MId)) (concretes : List MId) (k : MId) : Bool :=
  (lookupA deps k).all (fun d => elemB d concretes)

/-- One full `for model in models` pass of `Collector.sort`, threading
`sorted_models`, `concrete_models` and the `found` flag. -/
def sortPass (w : World) (deps : List (MId × List MId)) :
    List MId → List MId → List MId → Bool → List MId × List MId × Bool
  | [], sorted, concretes, found => (sorted, concretes, found)
  | m :: rest, sorted, concretes, found =>
    if elemB m sorted then sortPass w deps rest sorted concretes found
    else if canSort deps concretes (w.concrete m) then
      sortPass w deps rest (sorted ++ [m]) (setInsert concretes (w.concrete m)) true
    else sortPass w deps rest sorted concretes found

/-- The `while len(sorted_models) < len(models)` loop of `Collector.sort`:
run passes until every model is placed (`some sorted_models`) or a pass makes
no progress (`none`, the silent early `return`).  The fuel only bounds the
number of passes; since every continuing pass has `found = True` and therefore
strictly grows `sorted_models`, the initial fuel `models.length + 1` is never
exhausted before the loop exits. -/
def sortLoop (w : World) (deps : List (MId × List MId)) (models : List MId) :
    Nat → List MId → List MId → Option (List MId)
  | 0, _, _ => none
  | Nat.succ fuel, sorted, concretes =>
    if sorted.length < models.length then
      match sortPass w deps models sorted concretes false with
      | (sorted2, concretes2, found) =>
        if found then sortLoop w deps models fuel sorted2 concretes2 else none
    else some sorted

/-- `Collector.sort()`: on success replace `self.data` by the ordered mapping
`{model: self.data[model] for model in sorted_models}`; on a pass without
progress return silently, leaving every component of the state (including the
untouched log) exactly as it was. -/
def Collector.sortC (w : World) (c : Collector) : Collector :=
  let models := c.data.map Prod.fst
  match sortLoop w c.dependencies models (models.length + 1) [] [] with
  | none => c
  | some sorted => { c with data := sorted.map (fun m => (m, lookupA c.data m)) }

/-! ## Concrete worlds used by the counterexamples and witnesses -/

/-- A world with one record `m1` (oid 1) of model `M = 0` whose two
non-nullable FK fields reference the fresh records `r1` (oid 2) and `r2`
(oid 3) of model `R = 1`; `R` has no FK fields.  This is exactly the concrete
scenario of spec property 7. -/
def WTwoFK : World where
  cls := fun o => if o = 1 then 0 else 1
  pk := fun _ => false
  ref := fun o f =>
    if o = 1 && f = 0 then some 2 else if o = 1 && f = 1 then some 3 else none
  fkFields := fun m => if m = 0 then [0, 1] else []
  fkNull := fun _ _ => false
  fkTarget := fun m _ => if m = 0 then 1 else 0
  concrete := id

/-- A world where table `A = 0` references table `B = 1` only through a single
nullable FK field while `B` references `A` through a single non-nullable FK
field: record `a1` (oid 1, class `A`) has its nullable field set to `b1`
(oid 2, class `B`), and `b1` has its non-nullable field set to `a1`.  The
non-nullable table-level reference graph has the single edge `B -> A` and is
acyclic. -/
def WNullCycle : World where
  cls := fun o => if o = 1 then 0 else 1
  pk := fun _ => false
  ref := fun o f =>
    if o = 1 && f = 0 then some 2 else if o = 2 && f = 0 then some 1 else none
  fkFields := fun _ => [0]
  fkNull := fun m _ => m = 0
  fkTarget := fun m _ => if m = 0 then 1 else 0
  concrete := id

/-- The collector state produced by `collect([a1])` on `WNullCycle`: both
records are collected and both table edges are recorded, the nullable
`A -> B` reference included. -/
def cNullA : Collector := ⟨[(0, [1]), (1, [2])], [(0, [1]), (1, [0])], []⟩

/-- The collector state produced by `collect([b1])` on `WNullCycle`: discovery
order puts `B`'s bucket first. -/
def cNullB : Collector := ⟨[(1, [2]), (0, [1])], [(1, [0]), (0, [1])], []⟩

/-- A world where two records `s1` (oid 1) and `s2` (oid 2) of model `S = 0`
both reference the same fresh record `r1` (oid 3) of model `R = 1` through
their single non-nullable FK field; `R` has no FK fields.  `r1` is thus
reachable through two different reference paths. -/
def WShared : World where
  cls := fun o => if o ≤ 2 then 0 else 1
  pk := fun _ => false
  ref := fun o f => if (o = 1 || o = 2) && f = 0 then some 3 else none
  fkFields := fun m => if m = 0 then [0] else []
  fkNull := fun _ _ => false
  fkTarget := fun _ _ => 1
  concrete := id

/-- The collector state produced by `collect([s1, s2])` on `WShared`: the
shared record oid 3 has been appended twice to `R`'s bucket. -/
def cShared : Collector := ⟨[(0, [1, 2]), (1, [3, 3])], [(0, [1])], []⟩

/-- A world with a self-referencing table `A = 0` (a single non-nullable FK
field targeting `A` itself) and a table `B = 1` with a single non-nullable FK
field targeting `A`.  Record `b1` (oid 1, class `B`) references `a1` (oid 2,
class `A`), which references `a2` (oid 3, class `A`), which references
nothing: there is no instance-level cycle. -/
def WSelfRef : World where
  cls := fun o => if o = 1 then 1 else 0
  pk := fun _ => false
  ref := fun o f =>
    if o = 1 && f = 0 then some 2 else if o = 2 && f = 0 then some 3 else none
  fkFields := fun _ => [0]
  fkNull := fun _ _ => false
  fkTarget := fun _ _ => 0
  concrete := id

/-- The collector state produced by `collect([b1])` on `WSelfRef`: both `A`
records are discovered, and the dependency graph holds the edge `B -> A`
together with the table-level self-edge `A -> A`. -/
def cSelfRef : Collector := ⟨[(1, [1]), (0, [2, 3])], [(1, [0]), (0, [0])], []⟩

/-- A world with the acyclic chain of spec property 6: record `r1` (oid 1) of
model `R = 0` references the fresh record `p1` (oid 2) of model `P = 1`
through its single non-nullable FK field; `P` has no FK fields. -/
def WChain : World where
  cls := fun o => if o = 1 then 0 else 1
  pk := fun _ => false
  ref := fun o f => if o = 1 && f = 0 then some 2 else none
  fkFields := fun m => if m = 0 then [0] else []
  fkNull := fun _ _ => false
  fkTarget := fun _ _ => 1
  concrete := id

/-- The collector state produced by `collect([r1])` on `WChain`. -/
def cChain : Collector := ⟨[(0, [1]), (1, [2])], [(0, [1])], []⟩

/-! ## Claim C2 -/

/-- Claim C2 (code bug).  In the concrete scenario where `m1 : TableM`
references the two fresh records `r1, r2 : TableR` through two non-nullable FK
fields, `Collector.collect([m1])` raises `TypeError` instead of collecting
both records: the loop over the FK fields rebinds `new_objs` to the recursive
`collect` call's return value (`None`), so the second field's
`for obj in new_objs` iterates over `None`. -/
theorem c2_two_fk_fields_raise :
    Collector.collect WTwoFK 5 Collector.empty [1] none false =
      Except.error CErr.typeErr := rfl

/-! ## Claim C1, counterexample -/

/-- Claim C1 is false as stated.  In `WNullCycle` the non-nullable reference
graph has the single table edge `B -> A` (table `1 -> 0`) and is acyclic, yet
`collect([b1])` followed by `sort()` leaves the buckets in discovery order
`[B, A]`: the bucket of `B` precedes the bucket of `A` although `B`
non-nullably depends on `A`.  (The nullable `A -> B` reference also records an
edge, so `sort` sees a spurious two-table cycle and aborts.) -/
theorem c1_counterexample :
    Collector.collect WNullCycle 5 Collector.empty [2] none false =
        Except.ok cNullB ∧
      (Collector.sortC WNullCycle cNullB).data.map Prod.fst = [1, 0] ∧
      elemB 0 (lookupA cNullB.dependencies 1) = true :=
  ⟨rfl, rfl, rfl⟩

/-! ## Claim C3, counterexample -/

/-- Claim C3 is false as stated.  In `WShared` the record oid 3 is reachable
from the roots via two different reference paths (from `s1` and from `s2`);
after `collect([s1, s2])` and `sort()` it occurs twice in `R`'s bucket,
because `add` computes the identity lookup before extending the bucket and so
appends both occurrences arriving in the same batch. -/
theorem c3_counterexample :
    Collector.collect WShared 5 Collector.empty [1, 2] none false =
        Except.ok cShared ∧
      List.count 3 (lookupA (Collector.sortC WShared cShared).data 1) = 2 :=
  ⟨rfl, rfl⟩

/-! ## Claim C4, counterexample -/

/-- Claim C4 is false as stated.  In `WNullCycle`, table `A = 0` references
`B = 1` only through a nullable relation while `B` references `A`
non-nullably, yet `collect([a1])` records the edge `A -> B` as well (it
recurses without forwarding the field's `null` flag), so `sort` detects a
cycle: the sorting loop places no table (`none`) and the data mapping is left
unordered instead of fully ordered. -/
theorem c4_counterexample :
    Collector.collect WNullCycle 5 Collector.empty [1] none false =
        Except.ok cNullA ∧
      sortLoop WNullCycle cNullA.dependencies (cNullA.data.map Prod.fst)
          ((cNullA.data.map Prod.fst).length + 1) [] [] = none :=
  ⟨rfl, rfl⟩

/-! ## Claim C5, counterexample -/

/-- Claim C5 is false as stated, in its logging conjunct.  On the genuine
table-level cycle reached by `collect([a1])` in `WNullCycle`, `sort()` does
return without raising and leaves `self.data` untouched, but nothing is
logged: the whole collector state, its (empty) log included, is returned
exactly as it was, while the claim asserts the condition is logged. -/
theorem c5_counterexample :
    Collector.collect WNullCycle 5 Collector.empty [1] none false =
        Except.ok cNullA ∧
      Collector.sortC WNullCycle cNullA = cNullA ∧
      (Collector.sortC WNullCycle cNullA).log = [] :=
  ⟨rfl, rfl, rfl⟩

/-! ## Claim C6, counterexample -/

/-- Claim C6 is false as stated.  In `WSelfRef` there is no instance-level
cycle, yet after `collect([b1])` discovers both `A` records the table-level
self-edge `A -> A` makes every sorting pass skip `A` (and `B`, which depends
on `A`): the sorting loop aborts with no table placed instead of fully
ordering all tables, and the data mapping keeps discovery order `[B, A]`
although `B` non-nullably depends on `A`. -/
theorem c6_counterexample :
    Collector.collect WSelfRef 5 Collector.empty [1] none false =
        Except.ok cSelfRef ∧
      lookupA cSelfRef.data 0 = [2, 3] ∧
      sortLoop WSelfRef cSelfRef.dependencies (cSelfRef.data.map Prod.fst)
          ((cSelfRef.data.map Prod.fst).length + 1) [] [] = none ∧
      Collector.sortC WSelfRef cSelfRef = cSelfRef :=
  ⟨rfl, rfl, rfl, rfl⟩

/-! ## Basic lemmas about the dictionary operations -/

theorem elemB_iff {x : Nat} {l : List Nat} : elemB x l = true ↔ x ∈ l := by
  induction l with
  | nil => simp [elemB]
  | cons y ys ih =>
    by_cases h : x = y <;> simp [elemB, h, ih]

theorem elemB_eq_false_iff {x : Nat} {l : List Nat} : elemB x l = false ↔ x ∉ l := by
  rw [← Bool.not_eq_true, not_iff_not]
  exact elemB_iff

theorem mem_setInsert {y x : Nat} {l : List Nat} :
    y ∈ setInsert l x ↔ y = x ∨ y ∈ l := by
  unfold setInsert
  by_cases h : elemB x l
  · simp only [h, if_pos rfl]
    constructor
    · exact fun hy => Or.inr hy
    · rintro (rfl | hy)
      · exact elemB_iff.mp h
      · exact hy
  · simp [h, List.mem_append, or_comm]

theorem hasKey_iff {d : List (Nat × List Nat)} {k : Nat} :
    hasKey d k = true ↔ k ∈ d.map Prod.fst := by
  induction d with
  | nil => simp [hasKey]
  | cons p rest ih =>
    obtain ⟨k2, v⟩ := p
    by_cases h : k2 = k <;> simp [hasKey, h, ih, eq_comm (a := k) (b := k2)]

theorem lookupA_eq_nil_of_not_hasKey {d : List (Nat × List Nat)} {k : Nat}
    (h : hasKey d k = false) : lookupA d k = [] := by
  induction d with
  | nil => rfl
  | cons p rest ih =>
    obtain ⟨k2, v⟩ := p
    unfold hasKey at h
    unfold lookupA
    by_cases hk : k2 = k
    · simp [hk] at h
    · simpa [hk] using ih (by simpa [hk] using h)

theorem lookupA_append_right {d e : List (Nat × List Nat)} {k : Nat}
    (h : hasKey d k = false) : lookupA (d ++ e) k = lookupA e k := by
  induction d with
  | nil => rfl
  | cons p rest ih =>
    obtain ⟨k2, v⟩ := p
    unfold hasKey at h
    by_cases hk : k2 = k
    · simp [hk] at h
    · simpa [lookupA, hk] using ih (by simpa [hk] using h)

theorem lookupA_append_left {d e : List (Nat × List Nat)} {k : Nat}
    (h : hasKey d k = true) : lookupA (d ++ e) k = lookupA d k := by
  induction d with
  | nil => simp [hasKey] at h
  | cons p rest ih =>
    obtain ⟨k2, v⟩ := p
    unfold hasKey at h
    unfold lookupA
    by_cases hk : k2 = k
    · simp [hk]
    · simpa [hk] using ih (by simpa [hk] using h)

theorem lookupA_ensureKey {d : List (Nat × List Nat)} {k k2 : Nat} :
    lookupA (ensureKey d k) k2 = lookupA d k2 := by
  unfold ensureKey
  by_cases h : hasKey d k
  · simp [h]
  · rw [if_neg (by simp [h])]
    by_cases h2 : hasKey d k2
    · exact lookupA_append_left h2
    · have hd : lookupA d k2 = [] := lookupA_eq_nil_of_not_hasKey (by simpa using h2)
      rw [lookupA_append_right (by simpa using h2), hd]
      by_cases hk : k = k2
      · subst hk; simp [lookupA]
      · simp [lookupA, hk]

theorem keys_ensureKey_of_hasKey {d : List (Nat × List Nat)} {k : Nat}
    (h : hasKey d k = true) : ensureKey d k = d := by
  simp [ensureKey, h]

theorem keys_ensureKey_of_not_hasKey {d : List (Nat × List Nat)} {k : Nat}
    (h : hasKey d k = false) :
    (ensureKey d k).map Prod.fst = d.map Prod.fst ++ [k] := by
  simp [ensureKey, h]

theorem hasKey_ensureKey_self {d : List (Nat × List Nat)} {k : Nat} :
    hasKey (ensureKey d k) k = true := by
  by_cases h : hasKey d k
  · simp [ensureKey, h]
  · rw [hasKey_iff, keys_ensureKey_of_not_hasKey (by simpa using h)]
    simp

theorem hasKey_ensureKey_mono {d : List (Nat × List Nat)} {k k2 : Nat}
    (h : hasKey d k2 = true) : hasKey (ensureKey d k) k2 = true := by
  by_cases hk : hasKey d k
  · simpa [ensureKey, hk]
  · rw [hasKey_iff, keys_ensureKey_of_not_hasKey (by simpa using hk)]
    simp only [List.mem_append]
    exact Or.inl (hasKey_iff.mp h)

theorem nodup_keys_ensureKey {d : List (Nat × List Nat)} {k : Nat}
    (h : (d.map Prod.fst).Nodup) : ((ensureKey d k).map Prod.fst).Nodup := by
  by_cases hk : hasKey d k
  · simpa [ensureKey, hk]
  · rw [keys_ensureKey_of_not_hasKey (by simpa using hk)]
    simp only [List.nodup_append, List.nodup_singleton, true_and]
    refine ⟨h, ?_⟩
    intro a ha hmem
    simp only [List.mem_singleton] at hmem
    subst hmem
    exact absurd (hasKey_iff.mpr ha) (by simpa using hk)

theorem keys_setA_of_hasKey {d : List (Nat × List Nat)} {k : Nat} {v : List Nat}
    (h : hasKey d k = true) : (setA d k v).map Prod.fst = d.map Prod.fst := by
  induction d with
  | nil => simp [hasKey] at h
  | cons p rest ih =>
    obtain ⟨k2, v2⟩ := p
    unfold hasKey at h
    unfold setA
    by_cases hk : k2 = k
    · simp [hk]
    · simpa [hk] using ih (by simpa [hk] using h)

theorem lookupA_setA_self {d : List (Nat × List Nat)} {k : Nat} {v : List Nat} :
    lookupA (setA d k v) k = v := by
  induction d with
  | nil => simp [setA, lookupA]
  | cons p rest ih =>
    obtain ⟨k2, v2⟩ := p
    unfold setA lookupA
    by_cases hk : k2 = k
    · simp [hk, lookupA]
    · simpa [lookupA, hk] using ih

theorem lookupA_setA_other {d : List (Nat × List Nat)} {k k2 : Nat} {v : List Nat}
    (h : k2 ≠ k) : lookupA (setA d k v) k2 = lookupA d k2 := by
  have hne : ¬ k = k2 := fun he => h he.symm
  induction d with
  | nil => simp [setA, lookupA, hne]
  | cons p rest ih =>
    obtain ⟨k3, v3⟩ := p
    by_cases hk : k3 = k
    · subst hk
      simp [setA, lookupA, hne]
    · by_cases hk2 : k3 = k2 <;> simp [setA, lookupA, hk, hk2, h, ih]

theorem lookupA_depAdd_self {d : List (Nat × List Nat)} {k v : Nat} :
    lookupA (depAdd d k v) k = setInsert (lookupA d k) v := by
  induction d with
  | nil => simp [depAdd, lookupA, setInsert, elemB]
  | cons p rest ih =>
    obtain ⟨k2, s⟩ := p
    unfold depAdd lookupA
    by_cases hk : k2 = k
    · simp [hk, lookupA]
    · simpa [lookupA, hk] using ih

theorem lookupA_depAdd_other {d : List (Nat × List Nat)} {k k2 v : Nat}
    (h : k2 ≠ k) : lookupA (depAdd d k v) k2 = lookupA d k2 := by
  have hne : ¬ k = k2 := fun he => h he.symm
  induction d with
  | nil => simp [depAdd, lookupA, hne]
  | cons p rest ih =>
    obtain ⟨k3, s2⟩ := p
    by_cases hk : k3 = k
    · subst hk
      simp [depAdd, lookupA, hne]
    · by_cases hk2 : k3 = k2 <;> simp [depAdd, lookupA, hk, hk2, h, ih]

/-! ## Characterisation of `Collector.add` -/

theorem add_nil (w : World) (c : Collector) (src : Option MId) (nl rd : Bool) :
    Collector.add w c [] src nl rd = ([], c) := rfl

theorem add_fst (w : World) (c : Collector) (o0 : Oid) (rest : List Oid)
    (src : Option MId) (nl rd : Bool) :
    (Collector.add w c (o0 :: rest) src nl rd).1 =
      (o0 :: rest).filter
        (fun o => !w.pk o && !elemB o (lookupA c.data (w.cls o0))) := by
  rcases src with _ | s <;> cases nl <;> cases rd <;>
    simp [Collector.add, lookupA_ensureKey]

theorem add_data_lookup (w : World) (c : Collector) (o0 : Oid) (rest : List Oid)
    (src : Option MId) (nl rd : Bool) (m : MId) :
    lookupA ((Collector.add w c (o0 :: rest) src nl rd).2).data m =
      (if m = w.cls o0
       then lookupA c.data m ++ (Collector.add w c (o0 :: rest) src nl rd).1
       else lookupA c.data m) := by
  rcases src with _ | s <;> cases nl <;> cases rd <;>
    by_cases hm : m = w.cls o0 <;>
      simp [Collector.add, Collector.addDependency, hm, lookupA_ensureKey,
        lookupA_setA_self, lookupA_setA_other]

theorem add_deps_none (w : World) (c : Collector) (objs : List Oid) (nl rd : Bool) :
    ((Collector.add w c objs none nl rd).2).dependencies = c.dependencies := by
  cases objs <;> simp [Collector.add]

theorem add_deps_nullable (w : World) (c : Collector) (objs : List Oid)
    (s : MId) (rd : Bool) :
    ((Collector.add w c objs (some s) true rd).2).dependencies = c.dependencies := by
  cases objs <;> simp [Collector.add]

theorem add_deps_some (w : World) (c : Collector) (o0 : Oid) (rest : List Oid)
    (s : MId) :
    ((Collector.add w c (o0 :: rest) (some s) false false).2).dependencies =
      depAdd c.dependencies (w.concrete s) (w.concrete (w.cls o0)) := by
  simp [Collector.add, Collector.addDependency]

theorem add_log (w : World) (c : Collector) (objs : List Oid) (src : Option MId)
    (nl rd : Bool) : ((Collector.add w c objs src nl rd).2).log = c.log := by
  rcases objs with _ | ⟨o0, rest⟩
  · rfl
  · rcases src with _ | s <;> cases nl <;> cases rd <;>
      simp [Collector.add, Collector.addDependency]

/-! ## Claim C3, amended -/

/-- Claim C3 (amended).  Deduplication by object identity holds across `add`
calls: a record already present in its table bucket is never returned as new
and never appended again by any later `add` call (with a homogeneous input
batch), so a record discovered again through a different reference path keeps
a single occurrence; the duplication of `c3_counterexample` can only arise
when the same uncollected record occurs twice inside one input batch, because
the identity lookup is computed before the batch is appended. -/
theorem c3_identity_dedup_across_calls (w : World) (c : Collector)
    (objs : List Oid) (src : Option MId) (nl rd : Bool) (x : Oid)
    (hx : x ∈ lookupA c.data (w.cls x))
    (hhom : ∀ o1 ∈ objs, ∀ o2 ∈ objs, w.cls o1 = w.cls o2) :
    x ∉ (Collector.add w c objs src nl rd).1 ∧
    ∀ m, List.count x (lookupA ((Collector.add w c objs src nl rd).2).data m) =
      List.count x (lookupA c.data m) := by
  rcases objs with _ | ⟨o0, rest⟩
  · simp [add_nil]
  · have hnotnew : x ∉ (Collector.add w c (o0 :: rest) src nl rd).1 := by
      rw [add_fst]
      intro hmem
      obtain ⟨hxin, hpred⟩ := List.mem_filter.mp hmem
      have hcls : w.cls x = w.cls o0 := hhom x hxin o0 (by simp)
      rw [← hcls] at hpred
      simp only [Bool.and_eq_true, Bool.not_eq_true'] at hpred
      exact absurd (elemB_iff.mpr hx) (by simp [hpred.2])
    refine ⟨hnotnew, fun m => ?_⟩
    rw [add_data_lookup]
    by_cases hm : m = w.cls o0
    · rw [if_pos hm, List.count_append, List.count_eq_zero.mpr hnotnew, Nat.add_zero]
    · rw [if_neg hm]

/-- Witness for the amended claim C3 at a concrete input: oid 3 is already in
its bucket of `cShared`, and adding it again changes no occurrence count. -/
theorem c3_witness :
    (3 ∈ lookupA cShared.data (WShared.cls 3) ∧
      (∀ o1 ∈ [3], ∀ o2 ∈ [3], WShared.cls o1 = WShared.cls o2)) ∧
    (3 ∉ (Collector.add WShared cShared [3] none false false).1 ∧
      ∀ m, List.count 3
          (lookupA ((Collector.add WShared cShared [3] none false false).2).data m) =
        List.count 3 (lookupA cShared.data m)) :=
  ⟨⟨by decide, by decide⟩,
    c3_identity_dedup_across_calls WShared cShared [3] none false false 3
      (by decide) (by decide)⟩

/-! ## Claim C4, amended -/

/-- Claim C4 (amended).  A direct `add` call with `nullable=True` records no
dependency edge, but `collect` never forwards a field's `null` flag when it
recurses (it always passes the default `nullable=False`), so nullable
references followed during collection do contribute edges: in `WNullCycle`,
where `A` references `B` only nullably and `B` references `A` non-nullably,
`collect([a1])` still collects the nullably-referenced record `b1` into `B`'s
bucket, records the edge `A -> B`, and `sort` therefore treats the graph as
cyclic and aborts, leaving the state unchanged. -/
theorem c4_nullable_edges (w : World) :
    (∀ (c : Collector) (objs : List Oid) (s : MId) (rd : Bool),
        ((Collector.add w c objs (some s) true rd).2).dependencies =
          c.dependencies) ∧
    (Collector.collect WNullCycle 5 Collector.empty [1] none false =
        Except.ok cNullA ∧
      elemB 1 (lookupA cNullA.dependencies 0) = true ∧
      elemB 2 (lookupA cNullA.data 1) = true ∧
      Collector.sortC WNullCycle cNullA = cNullA) :=
  ⟨fun c objs s rd => add_deps_nullable w c objs s rd, rfl, rfl, rfl, rfl⟩

/-! ## Claim C8 -/

/-- Claim C8 (confirmed).  `add` on the empty sequence returns the empty list
and leaves the collector state entirely unchanged; when every input record
either carries a persisted identity (truthy `pk`) or is already collected by
object identity, `add` returns the empty list and no bucket changes; and a
record with a persisted identity is never returned as new and never appended
to any bucket.  The embedding is total, so no exception is raised on any of
these paths. -/
theorem c8_degenerate_add (w : World) (c : Collector) (src : Option MId)
    (nl rd : Bool) :
    Collector.add w c [] src nl rd = ([], c) ∧
    (∀ objs : List Oid,
      (∀ o1 ∈ objs, ∀ o2 ∈ objs, w.cls o1 = w.cls o2) →
      (∀ o ∈ objs, w.pk o = true ∨ o ∈ lookupA c.data (w.cls o)) →
      (Collector.add w c objs src nl rd).1 = [] ∧
      ∀ m, lookupA ((Collector.add w c objs src nl rd).2).data m =
        lookupA c.data m) ∧
    (∀ (objs : List Oid) (x : Oid), w.pk x = true →
      x ∉ (Collector.add w c objs src nl rd).1 ∧
      ∀ m, List.count x (lookupA ((Collector.add w c objs src nl rd).2).data m) =
        List.count x (lookupA c.data m)) := by
  refine ⟨add_nil w c src nl rd, ?_, ?_⟩
  · intro objs hhom hall
    rcases objs with _ | ⟨o0, rest⟩
    · simp [add_nil]
    · have hnew : (Collector.add w c (o0 :: rest) src nl rd).1 = [] := by
        rw [add_fst]
        apply List.filter_eq_nil_iff.mpr
        intro o ho
        rcases hall o ho with hpk | hmem
        · simp [hpk]
        · have hcls : w.cls o = w.cls o0 := hhom o ho o0 (by simp)
          have : elemB o (lookupA c.data (w.cls o0)) = true := by
            rw [← hcls]; exact elemB_iff.mpr hmem
          simp [this]
      refine ⟨hnew, fun m => ?_⟩
      rw [add_data_lookup, hnew]
      by_cases hm : m = w.cls o0 <;> simp [hm]
  · intro objs x hpk
    rcases objs with _ | ⟨o0, rest⟩
    · simp [add_nil]
    · have hnotnew : x ∉ (Collector.add w c (o0 :: rest) src nl rd).1 := by
        rw [add_fst]
        intro hmem
        obtain ⟨_, hpred⟩ := List.mem_filter.mp hmem
        simp [hpk] at hpred
      refine ⟨hnotnew, fun m => ?_⟩
      rw [add_data_lookup]
      by_cases hm : m = w.cls o0
      · rw [if_pos hm, List.count_append, List.count_eq_zero.mpr hnotnew,
          Nat.add_zero]
      · rw [if_neg hm]

/-- Witness for claim C8 at a concrete input: on `cShared`, whose `S` bucket
already holds oids 1 and 2, adding `[1, 2]` again is empty-result and
bucket-preserving, and a persisted record is never appended. -/
theorem c8_witness :
    (Collector.add WShared cShared [] none false false = ([], cShared)) ∧
    ((∀ o1 ∈ [1, 2], ∀ o2 ∈ [1, 2], WShared.cls o1 = WShared.cls o2) ∧
      (∀ o ∈ [1, 2], WShared.pk o = true ∨
        o ∈ lookupA cShared.data (WShared.cls o)) ∧
      (Collector.add WShared cShared [1, 2] none false false).1 = [] ∧
      ∀ m, lookupA
          ((Collector.add WShared cShared [1, 2] none false false).2).data m =
        lookupA cShared.data m) :=
  ⟨(c8_degenerate_add WShared cShared none false false).1,
    by decide, by decide,
    ((c8_degenerate_add WShared cShared none false false).2.1 [1, 2]
      (by decide) (by decide)).1,
    ((c8_degenerate_add WShared cShared none false false).2.1 [1, 2]
      (by decide) (by decide)).2⟩

/-! ## Invariants of the sorting loop -/

/-- Every recorded dependency of every placed model is the concrete model of
an earlier placed model: whichever way the placed list splits as
`pre ++ m :: post`, the dependencies of `m` are resolved within `pre`. -/
def OrderedW (w : World) (deps : List (MId × List MId)) (sorted : List MId) : Prop :=
  ∀ pre m post, sorted = pre ++ m :: post →
    ∀ dc, elemB dc (lookupA deps (w.concrete m)) = true →
    ∃ m2 ∈ pre, w.concrete m2 = dc

/-- Split a decomposition of `l ++ [x]`: the marked element is either the
appended `x` (with `pre = l`) or lies inside `l`. -/
theorem append_singleton_split {l pre post : List MId} {x y : MId}
    (h : l ++ [x] = pre ++ y :: post) :
    (post = [] ∧ pre = l ∧ y = x) ∨
    ∃ post2, post = post2 ++ [x] ∧ l = pre ++ y :: post2 := by
  rcases List.eq_nil_or_concat post with rfl | ⟨post2, x2, rfl⟩
  · left
    have h2 := List.append_inj' h (by rfl)
    have hy : y = x := by
      have := h2.2
      simp only [List.cons.injEq] at this
      exact this.1.symm
    exact ⟨rfl, h2.1.symm, hy⟩
  · right
    rw [List.concat_eq_append,
      show pre ++ y :: (post2 ++ [x2]) = (pre ++ y :: post2) ++ [x2] by simp] at h
    have h2 := List.append_inj' h (by rfl)
    have hx : x2 = x := by
      have := h2.2
      simp only [List.cons.injEq] at this
      exact this.1.symm
    exact ⟨post2, by rw [List.concat_eq_append, hx], h2.1⟩

theorem orderedW_append {w : World} {deps : List (MId × List MId)}
    {sorted concretes : List MId} {m : MId}
    (hord : OrderedW w deps sorted)
    (hlink : ∀ dc, dc ∈ concretes ↔ ∃ m2 ∈ sorted, w.concrete m2 = dc)
    (hcan : canSort deps concretes (w.concrete m) = true) :
    OrderedW w deps (sorted ++ [m]) := by
  intro pre m2 post hdec dc hdc
  rcases append_singleton_split hdec with ⟨_, rfl, rfl⟩ | ⟨post2, _, hl⟩
  · have hmem : dc ∈ concretes := by
      have := List.all_eq_true.mp hcan dc (elemB_iff.mp hdc)
      exact elemB_iff.mp this
    exact (hlink dc).mp hmem
  · exact hord pre m2 post2 hl dc hdc

theorem sortPass_found_true (w : World) (deps : List (MId × List MId)) :
    ∀ (l sorted concretes : List MId),
      (sortPass w deps l sorted concretes true).2.2 = true := by
  intro l
  induction l with
  | nil => intro sorted concretes; simp [sortPass]
  | cons m rest ih =>
    intro sorted concretes
    unfold sortPass
    by_cases h1 : elemB m sorted
    · simpa [h1] using ih sorted concretes
    · by_cases h2 : canSort deps concretes (w.concrete m) <;>
        simp [h1, h2, ih]

theorem sortPass_length_mono (w : World) (deps : List (MId × List MId)) :
    ∀ (l sorted concretes : List MId) (fnd : Bool),
      sorted.length ≤ (sortPass w deps l sorted concretes fnd).1.length := by
  intro l
  induction l with
  | nil => intro sorted concretes fnd; simp [sortPass]
  | cons m rest ih =>
    intro sorted concretes fnd
    unfold sortPass
    by_cases h1 : elemB m sorted
    · simpa [h1] using ih sorted concretes fnd
    · by_cases h2 : canSort deps concretes (w.concrete m)
      · simp only [h1, h2]
        simp only [Bool.false_eq_true, if_false, if_true]
        calc sorted.length ≤ (sorted ++ [m]).length := by simp
          _ ≤ _ := ih (sorted ++ [m]) (setInsert concretes (w.concrete m)) true
      · simpa [h1, h2] using ih sorted concretes fnd

theorem sortPass_no_progress (w : World) (deps : List (MId × List MId)) :
    ∀ (l sorted concretes : List MId),
      (sortPass w deps l sorted concretes false).2.2 = false →
      (sortPass w deps l sorted concretes false).1 = sorted ∧
      (sortPass w deps l sorted concretes false).2.1 = concretes ∧
      ∀ m ∈ l, elemB m sorted = false →
        canSort deps concretes (w.concrete m) = false := by
  intro l
  induction l with
  | nil => intro sorted concretes _; simp [sortPass]
  | cons m rest ih =>
    intro sorted concretes hf
    by_cases h1 : elemB m sorted
    · unfold sortPass at hf ⊢
      simp only [h1, if_true] at hf ⊢
      obtain ⟨ha, hb, hc⟩ := ih sorted concretes hf
      refine ⟨ha, hb, ?_⟩
      intro m2 hm2 hm2s
      rcases List.mem_cons.mp hm2 with rfl | hm2r
      · rw [hm2s] at h1; cases h1
      · exact hc m2 hm2r hm2s
    · by_cases h2 : canSort deps concretes (w.concrete m)
      · exfalso
        unfold sortPass at hf
        simp only [h1, h2] at hf
        simp only [Bool.false_eq_true, if_false, if_true] at hf
        rw [sortPass_found_true] at hf
        cases hf
      · unfold sortPass at hf ⊢
        simp only [h1, h2] at hf ⊢
        simp only [Bool.false_eq_true, if_false] at hf ⊢
        obtain ⟨ha, hb, hc⟩ := ih sorted concretes hf
        refine ⟨ha, hb, ?_⟩
        intro m2 hm2 hm2s
        rcases List.mem_cons.mp hm2 with rfl | hm2r
        · simpa using h2
        · exact hc m2 hm2r hm2s

theorem sortPass_progress_length (w : World) (deps : List (MId × List MId)) :
    ∀ (l sorted concretes : List MId),
      (sortPass w deps l sorted concretes false).2.2 = true →
      sorted.length < (sortPass w deps l sorted concretes false).1.length := by
  intro l
  induction l with
  | nil => intro sorted concretes h; simp [sortPass] at h
  | cons m rest ih =>
    intro sorted concretes h
    unfold sortPass at h ⊢
    by_cases h1 : elemB m sorted
    · simp only [h1, if_true] at h ⊢
      exact ih sorted concretes h
    · by_cases h2 : canSort deps concretes (w.concrete m)
      · simp only [h1, h2]
        simp only [Bool.false_eq_true, if_false, if_true]
        calc sorted.length < (sorted ++ [m]).length := by simp
          _ ≤ _ := sortPass_length_mono w deps rest (sorted ++ [m])
            (setInsert concretes (w.concrete m)) true
      · simp only [h1, h2] at h ⊢
        simp only [Bool.false_eq_true, if_false] at h ⊢
        exact ih sorted concretes h

/-- The joint invariant threaded through the passes of `Collector.sort`:
`sorted_models` is a duplicate-free selection of the snapshot `models`,
`concrete_models` is exactly the set of concrete models of `sorted_models`,
and every placed model has its dependencies placed earlier. -/
structure SortInv (w : World) (deps : List (MId × List MId))
    (models sorted concretes : List MId) : Prop where
  nodup : sorted.Nodup
  sub : ∀ m ∈ sorted, m ∈ models
  link : ∀ dc, dc ∈ concretes ↔ ∃ m ∈ sorted, w.concrete m = dc
  ord : OrderedW w deps sorted

theorem sortPass_inv (w : World) (deps : List (MId × List MId)) (models : List MId) :
    ∀ (l sorted concretes : List MId) (fnd : Bool),
      (∀ m ∈ l, m ∈ models) →
      SortInv w deps models sorted concretes →
      SortInv w deps models (sortPass w deps l sorted concretes fnd).1
        (sortPass w deps l sorted concretes fnd).2.1 := by
  intro l
  induction l with
  | nil => intro sorted concretes fnd _ hinv; simpa [sortPass] using hinv
  | cons m rest ih =>
    intro sorted concretes fnd hsub hinv
    unfold sortPass
    by_cases h1 : elemB m sorted
    · simp only [h1, if_true]
      exact ih sorted concretes fnd (fun x hx => hsub x (List.mem_cons_of_mem m hx)) hinv
    · by_cases h2 : canSort deps concretes (w.concrete m)
      · simp only [h1, h2]
        simp only [Bool.false_eq_true, if_false, if_true]
        refine ih (sorted ++ [m]) (setInsert concretes (w.concrete m)) true
          (fun x hx => hsub x (List.mem_cons_of_mem m hx)) ?_
        have hmnotin : m ∉ sorted := by
          intro hc; rw [elemB_iff.mpr hc] at h1; exact h1 rfl
        refine ⟨?_, ?_, ?_, ?_⟩
        · rw [List.nodup_append]
          exact ⟨hinv.nodup, List.nodup_singleton m,
            fun a ha hb => by
              simp only [List.mem_singleton] at hb
              subst hb
              exact hmnotin ha⟩
        · intro x hx
          rcases List.mem_append.mp hx with hx2 | hx2
          · exact hinv.sub x hx2
          · simp only [List.mem_singleton] at hx2
            subst hx2
            exact hsub x (List.mem_cons_self x rest)
        · intro dc
          rw [mem_setInsert]
          constructor
          · rintro (rfl | hdc)
            · exact ⟨m, by simp, rfl⟩
            · obtain ⟨m2, hm2, hc⟩ := (hinv.link dc).mp hdc
              exact ⟨m2, List.mem_append.mpr (Or.inl hm2), hc⟩
          · rintro ⟨m2, hm2, hc⟩
            rcases List.mem_append.mp hm2 with hm2b | hm2b
            · exact Or.inr ((hinv.link dc).mpr ⟨m2, hm2b, hc⟩)
            · simp only [List.mem_singleton] at hm2b
              subst hm2b
              exact Or.inl hc.symm
        · exact orderedW_append hinv.ord hinv.link h2
      · simp only [h1, h2]
        simp only [Bool.false_eq_true, if_false]
        exact ih sorted concretes fnd (fun x hx => hsub x (List.mem_cons_of_mem m hx)) hinv

theorem sortLoop_some_inv (w : World) (deps : List (MId × List MId))
    (models : List MId) :
    ∀ (fuel : Nat) (sorted concretes out : List MId),
      sortLoop w deps models fuel sorted concretes = some out →
      SortInv w deps models sorted concretes →
      (∃ concretes2, SortInv w deps models out concretes2) ∧
      models.length ≤ out.length := by
  intro fuel
  induction fuel with
  | zero => intro sorted concretes out h _; cases h
  | succ fuel ih =>
    intro sorted concretes out h hinv
    unfold sortLoop at h
    by_cases hg : sorted.length < models.length
    · rw [if_pos hg] at h
      rcases hsp : sortPass w deps models sorted concretes false with
        ⟨sorted2, concretes2, found⟩
      rw [hsp] at h
      have hinv2 := sortPass_inv w deps models models sorted concretes false
        (fun x hx => hx) hinv
      rw [hsp] at hinv2
      cases found with
      | false => simp at h
      | true =>
        simp only [if_pos] at h
        exact ih _ _ out h hinv2
    · rw [if_neg hg] at h
      obtain rfl : sorted = out := by cases h; rfl
      exact ⟨⟨concretes, hinv⟩, by omega⟩

theorem exists_unsorted {models sorted : List MId} (hmnd : models.Nodup)
    (hsub : ∀ m ∈ sorted, m ∈ models) (hlen : sorted.length < models.length) :
    ∃ m ∈ models, m ∉ sorted := by
  by_contra hc
  push_neg at hc
  have hsub2 : models ⊆ sorted := fun x hx => hc x hx
  have := (hmnd.subperm hsub2).length_le
  omega

/-- When the recorded dependency graph is closed over the models snapshot and
admits a rank function that strictly decreases along edges (acyclicity), the
sorting loop always terminates successfully. -/
theorem sortLoop_success (w : World) (deps : List (MId × List MId))
    (models : List MId) (rank : MId → Nat)
    (hclos : ∀ m ∈ models, ∀ dc, elemB dc (lookupA deps (w.concrete m)) = true →
      ∃ m2 ∈ models, w.concrete m2 = dc)
    (hrank : ∀ m ∈ models, ∀ dc, elemB dc (lookupA deps (w.concrete m)) = true →
      rank dc < rank (w.concrete m))
    (hmnd : models.Nodup) :
    ∀ (fuel : Nat) (sorted concretes : List MId),
      SortInv w deps models sorted concretes →
      models.length + 1 ≤ fuel + sorted.length →
      ∃ out, sortLoop w deps models fuel sorted concretes = some out := by
  intro fuel
  induction fuel with
  | zero =>
    intro sorted concretes hinv hb
    exfalso
    have := (hinv.nodup.subperm hinv.sub).length_le
    omega
  | succ fuel ih =>
    intro sorted concretes hinv hb
    unfold sortLoop
    by_cases hg : sorted.length < models.length
    · rw [if_pos hg]
      rcases hsp : sortPass w deps models sorted concretes false with
        ⟨sorted2, concretes2, found⟩
      have hinv2 := sortPass_inv w deps models models sorted concretes false
        (fun x hx => hx) hinv
      rw [hsp] at hinv2
      cases found with
      | false =>
        exfalso
        obtain ⟨_, _, h3⟩ := sortPass_no_progress w deps models sorted concretes
          (by rw [hsp])
        obtain ⟨m0, hm0mem, hm0not⟩ := exists_unsorted hmnd hinv.sub hg
        have descent : ∀ n, ∀ m ∈ models, m ∉ sorted →
            rank (w.concrete m) < n → False := by
          intro n
          induction n using Nat.strong_induction_on with
          | _ n ihn =>
            intro m hm hmnot hr
            have hcs : canSort deps concretes (w.concrete m) = false :=
              h3 m hm (elemB_eq_false_iff.mpr hmnot)
            have hexists : ∃ dc ∈ lookupA deps (w.concrete m),
                elemB dc concretes = false := by
              by_contra hcon
              push_neg at hcon
              have hall : canSort deps concretes (w.concrete m) = true := by
                unfold canSort
                apply List.all_eq_true.mpr
                intro x hx
                cases hxe : elemB x concretes with
                | false => exact absurd hxe (hcon x hx)
                | true => rfl
              rw [hall] at hcs
              cases hcs
            obtain ⟨dc, hdcmem, hdcnot⟩ := hexists
            have hdcB : elemB dc (lookupA deps (w.concrete m)) = true :=
              elemB_iff.mpr hdcmem
            obtain ⟨m2, hm2mem, hm2c⟩ := hclos m hm dc hdcB
            have hm2not : m2 ∉ sorted := by
              intro hin
              have hcmem : dc ∈ concretes := (hinv.link dc).mpr ⟨m2, hin, hm2c⟩
              exact absurd (elemB_iff.mpr hcmem) (by simp [hdcnot])
            exact ihn (rank (w.concrete m)) hr m2 hm2mem hm2not
              (by rw [hm2c]; exact hrank m hm dc hdcB)
        exact descent (rank (w.concrete m0) + 1) m0 hm0mem hm0not
          (Nat.lt_succ_self _)
      | true =>
        have hlen := sortPass_progress_length w deps models sorted concretes
          (by rw [hsp])
        rw [hsp] at hlen
        show ∃ out,
          (if true = true then sortLoop w deps models fuel sorted2 concretes2
           else none) = some out
        rw [if_pos rfl]
        exact ih sorted2 concretes2 hinv2 (by simp at hlen; omega)
    · rw [if_neg hg]
      exact ⟨sorted, rfl⟩

theorem sortPass_blocked (w : World) (deps : List (MId × List MId)) (P : MId → Bool)
    (hP : ∀ k, P k = true → ∃ dc, elemB dc (lookupA deps k) = true ∧ P dc = true) :
    ∀ (l sorted concretes : List MId) (fnd : Bool),
      (∀ s ∈ concretes, P s = false) →
      (∀ s ∈ (sortPass w deps l sorted concretes fnd).2.1, P s = false) ∧
      (∀ m2, P (w.concrete m2) = true → m2 ∉ sorted →
        m2 ∉ (sortPass w deps l sorted concretes fnd).1) := by
  intro l
  induction l with
  | nil => intro sorted concretes fnd hconc; exact ⟨hconc, fun m2 _ h => by simpa [sortPass] using h⟩
  | cons m rest ih =>
    intro sorted concretes fnd hconc
    unfold sortPass
    by_cases h1 : elemB m sorted
    · simp only [h1, if_true]
      exact ih sorted concretes fnd hconc
    · by_cases h2 : canSort deps concretes (w.concrete m)
      · simp only [h1, h2]
        simp only [Bool.false_eq_true, if_false, if_true]
        have hPm : P (w.concrete m) = false := by
          cases hPmη : P (w.concrete m) with
          | false => rfl
          | true =>
            exfalso
            obtain ⟨dc, hdc, hPdc⟩ := hP (w.concrete m) hPmη
            have : elemB dc concretes = true :=
              List.all_eq_true.mp h2 dc (elemB_iff.mp hdc)
            rw [hconc dc (elemB_iff.mp this)] at hPdc
            cases hPdc
        have hconc2 : ∀ s ∈ setInsert concretes (w.concrete m), P s = false := by
          intro s hs
          rcases mem_setInsert.mp hs with rfl | hs2
          · exact hPm
          · exact hconc s hs2
        obtain ⟨ha, hb⟩ := ih (sorted ++ [m]) (setInsert concretes (w.concrete m))
          true hconc2
        refine ⟨ha, ?_⟩
        intro m2 hPm2 hm2not
        refine hb m2 hPm2 ?_
        intro hc
        rcases List.mem_append.mp hc with hcc | hcc
        · exact hm2not hcc
        · simp only [List.mem_singleton] at hcc
          subst hcc
          rw [hPm2] at hPm
          cases hPm
      · simp only [h1, h2]
        simp only [Bool.false_eq_true, if_false]
        exact ih sorted concretes fnd hconc

theorem sortLoop_blocked (w : World) (deps : List (MId × List MId))
    (models : List MId) (P : MId → Bool)
    (hP : ∀ k, P k = true → ∃ dc, elemB dc (lookupA deps k) = true ∧ P dc = true)
    (m0 : MId) (hm0 : m0 ∈ models) (hPm0 : P (w.concrete m0) = true) :
    ∀ (fuel : Nat) (sorted concretes : List MId),
      SortInv w deps models sorted concretes →
      (∀ s ∈ concretes, P s = false) → m0 ∉ sorted →
      sortLoop w deps models fuel sorted concretes = none := by
  intro fuel
  induction fuel with
  | zero => intro sorted concretes _ _ _; rfl
  | succ fuel ih =>
    intro sorted concretes hinv hconc hm0not
    have hg : sorted.length < models.length := by
      have hsub2 : sorted ⊆ models.erase m0 := by
        intro s hs
        have hne : s ≠ m0 := fun he => hm0not (he ▸ hs)
        exact (List.mem_erase_of_ne hne).mpr (hinv.sub s hs)
      have h1 := (hinv.nodup.subperm hsub2).length_le
      have h2 : (models.erase m0).length = models.length - 1 :=
        List.length_erase_of_mem hm0
      have h3 : 0 < models.length := List.length_pos_of_mem hm0
      omega
    unfold sortLoop
    rw [if_pos hg]
    rcases hsp : sortPass w deps models sorted concretes false with ⟨s2, c2, f⟩
    have hbl := sortPass_blocked w deps P hP models sorted concretes false hconc
    rw [hsp] at hbl
    have hinv2 := sortPass_inv w deps models models sorted concretes false
      (fun x hx => hx) hinv
    rw [hsp] at hinv2
    cases f with
    | false =>
      show (if false = true then sortLoop w deps models fuel s2 c2 else none) = none
      rw [if_neg (by simp)]
    | true =>
      show (if true = true then sortLoop w deps models fuel s2 c2 else none) = none
      rw [if_pos rfl]
      exact ih s2 c2 hinv2 hbl.1 (hbl.2 m0 hPm0 hm0not)

/-- The empty accumulators satisfy the sorting invariant. -/
theorem sortInv_init (w : World) (deps : List (MId × List MId)) (models : List MId) :
    SortInv w deps models [] [] := by
  refine ⟨List.nodup_nil, by simp, by simp, ?_⟩
  intro pre m post h dc _
  cases pre <;> simp at h

theorem lookupA_map_lookup (data : List (Nat × List Nat)) (out : List Nat) (k : Nat) :
    lookupA (out.map (fun m => (m, lookupA data m))) k =
      if k ∈ out then lookupA data k else [] := by
  induction out with
  | nil => simp [lookupA]
  | cons m rest ih =>
    simp only [List.map_cons, lookupA]
    by_cases h : m = k
    · subst h; simp
    · rw [if_neg h, ih]
      by_cases h2 : k ∈ rest
      · rw [if_pos h2, if_pos (List.mem_cons.mpr (Or.inr h2))]
      · rw [if_neg h2, if_neg ?_]
        intro hc
        rcases List.mem_cons.mp hc with rfl | hh
        · exact h rfl
        · exact h2 hh

theorem sortC_eq_of_none (w : World) (c : Collector)
    (h : sortLoop w c.dependencies (c.data.map Prod.fst)
      ((c.data.map Prod.fst).length + 1) [] [] = none) :
    Collector.sortC w c = c := by
  simp only [Collector.sortC, h]

theorem sortC_some_spec (w : World) (c : Collector) (out : List MId)
    (h : sortLoop w c.dependencies (c.data.map Prod.fst)
      ((c.data.map Prod.fst).length + 1) [] [] = some out) :
    (Collector.sortC w c).data = out.map (fun m => (m, lookupA c.data m)) ∧
    (Collector.sortC w c).dependencies = c.dependencies ∧
    (Collector.sortC w c).log = c.log ∧
    List.Perm out (c.data.map Prod.fst) ∧
    ∃ concretes2, SortInv w c.dependencies (c.data.map Prod.fst) out concretes2 := by
  obtain ⟨⟨conc2, hinv⟩, hlen⟩ := sortLoop_some_inv w c.dependencies
    (c.data.map Prod.fst) ((c.data.map Prod.fst).length + 1) [] [] out h
    (sortInv_init w c.dependencies (c.data.map Prod.fst))
  refine ⟨?_, ?_, ?_, (hinv.nodup.subperm hinv.sub).perm_of_length_le hlen,
    ⟨conc2, hinv⟩⟩ <;>
    simp only [Collector.sortC, h]

/-! ## Claim C10 -/

/-- Claim C10 (confirmed).  `sort` never loses or alters collected records:
when the sorting loop places every table (`some out`), the replaced `data`
has the same table keys as a permutation and binds each table to the identical
record list it had before (missing keys still look up to the empty bucket),
while `dependencies` and the log are untouched; when the loop aborts
(`none`), the collector state is returned exactly as it was. -/
theorem c10_sort_preserves_data (w : World) (c : Collector) :
    (sortLoop w c.dependencies (c.data.map Prod.fst)
        ((c.data.map Prod.fst).length + 1) [] [] = none →
      Collector.sortC w c = c) ∧
    (∀ out, sortLoop w c.dependencies (c.data.map Prod.fst)
        ((c.data.map Prod.fst).length + 1) [] [] = some out →
      List.Perm ((Collector.sortC w c).data.map Prod.fst) (c.data.map Prod.fst) ∧
      (∀ m, lookupA (Collector.sortC w c).data m = lookupA c.data m) ∧
      (Collector.sortC w c).dependencies = c.dependencies ∧
      (Collector.sortC w c).log = c.log) := by
  refine ⟨sortC_eq_of_none w c, ?_⟩
  intro out h
  obtain ⟨hdata, hdeps, hlog, hperm, _⟩ := sortC_some_spec w c out h
  have hkeys : (Collector.sortC w c).data.map Prod.fst = out := by
    rw [hdata, List.map_map]
    have : (Prod.fst ∘ fun m : MId => (m, lookupA c.data m)) = id := rfl
    rw [this, List.map_id]
  refine ⟨by rw [hkeys]; exact hperm, ?_, hdeps, hlog⟩
  intro m
  rw [hdata, lookupA_map_lookup]
  by_cases hm : m ∈ out
  · rw [if_pos hm]
  · rw [if_neg hm]
    have hnm : m ∉ c.data.map Prod.fst := fun hc2 => hm (hperm.mem_iff.mpr hc2)
    have hnk : hasKey c.data m = false := by
      cases hk : hasKey c.data m with
      | false => rfl
      | true => exact absurd (hasKey_iff.mp hk) hnm
    exact (lookupA_eq_nil_of_not_hasKey hnk).symm

/-- Witness for claim C10 at a concrete input: on the chain state `cChain` the
sorting loop succeeds with order `[P, R]` and the frame properties follow. -/
theorem c10_witness :
    sortLoop WChain cChain.dependencies (cChain.data.map Prod.fst)
        ((cChain.data.map Prod.fst).length + 1) [] [] = some [1, 0] ∧
    (List.Perm ((Collector.sortC WChain cChain).data.map Prod.fst)
        (cChain.data.map Prod.fst) ∧
      (∀ m, lookupA (Collector.sortC WChain cChain).data m =
        lookupA cChain.data m) ∧
      (Collector.sortC WChain cChain).dependencies = cChain.dependencies ∧
      (Collector.sortC WChain cChain).log = cChain.log) :=
  ⟨rfl, (c10_sort_preserves_data WChain cChain).2 [1, 0] rfl⟩

/-! ## Claim C5, amended -/

/-- Claim C5 (amended).  On a genuine table-level dependency cycle between
the concrete tables `A = concrete m1` and `B` (with `m1` a collected table
key), `sort()` returns without raising: the sorting loop places no complete
order (`none`, fewer sorted tables than total), the whole collector state
`self.data` included is left exactly as it was, and nothing is logged (the
log component is part of the unchanged state; `sort` contains no logging
call). -/
theorem c5_cycle_sort_aborts (w : World) (c : Collector) (m1 B : MId)
    (hm1 : m1 ∈ c.data.map Prod.fst)
    (hAB : elemB B (lookupA c.dependencies (w.concrete m1)) = true)
    (hBA : elemB (w.concrete m1) (lookupA c.dependencies B) = true) :
    sortLoop w c.dependencies (c.data.map Prod.fst)
      ((c.data.map Prod.fst).length + 1) [] [] = none ∧
    Collector.sortC w c = c := by
  have hnone : sortLoop w c.dependencies (c.data.map Prod.fst)
      ((c.data.map Prod.fst).length + 1) [] [] = none := by
    refine sortLoop_blocked w c.dependencies (c.data.map Prod.fst)
      (fun k => decide (k = w.concrete m1) || decide (k = B)) ?_ m1 hm1
      (by simp) _ [] []
      (sortInv_init w c.dependencies (c.data.map Prod.fst)) (by simp) (by simp)
    intro k hk
    rcases Bool.or_eq_true_iff.mp hk with hk2 | hk2
    · exact ⟨B, by rw [of_decide_eq_true hk2]; exact hAB, by simp⟩
    · exact ⟨w.concrete m1, by rw [of_decide_eq_true hk2]; exact hBA, by simp⟩
  exact ⟨hnone, sortC_eq_of_none w c hnone⟩

/-- Witness for the amended claim C5 at the concrete cyclic state `cNullA`. -/
theorem c5_witness :
    (0 ∈ cNullA.data.map Prod.fst ∧
      elemB 1 (lookupA cNullA.dependencies (WNullCycle.concrete 0)) = true ∧
      elemB (WNullCycle.concrete 0) (lookupA cNullA.dependencies 1) = true) ∧
    (sortLoop WNullCycle cNullA.dependencies (cNullA.data.map Prod.fst)
        ((cNullA.data.map Prod.fst).length + 1) [] [] = none ∧
      Collector.sortC WNullCycle cNullA = cNullA) :=
  ⟨⟨by decide, by decide, by decide⟩,
    c5_cycle_sort_aborts WNullCycle cNullA 0 1 (by decide) (by decide) (by decide)⟩

/-! ## Claim C6, amended -/

/-- Claim C6 (amended).  A self-referencing table does cause table-level
cycle detection: whenever a collected table key `m` carries the recorded
self-edge `concrete m -> concrete m` (which `add_dependency` records for a
record referencing another record of the same table), no sorting pass can
ever place `m`, so the sorting loop aborts (`none`) and `sort()` leaves the
collector state exactly as it was, even when there is no instance-level
cycle. -/
theorem c6_self_edge_sort_aborts (w : World) (c : Collector) (m : MId)
    (hm : m ∈ c.data.map Prod.fst)
    (hself : elemB (w.concrete m) (lookupA c.dependencies (w.concrete m)) = true) :
    sortLoop w c.dependencies (c.data.map Prod.fst)
      ((c.data.map Prod.fst).length + 1) [] [] = none ∧
    Collector.sortC w c = c := by
  have hnone : sortLoop w c.dependencies (c.data.map Prod.fst)
      ((c.data.map Prod.fst).length + 1) [] [] = none := by
    refine sortLoop_blocked w c.dependencies (c.data.map Prod.fst)
      (fun k => decide (k = w.concrete m)) ?_ m hm (by simp) _ [] []
      (sortInv_init w c.dependencies (c.data.map Prod.fst)) (by simp) (by simp)
    intro k hk
    exact ⟨w.concrete m, by rw [of_decide_eq_true hk]; exact hself, by simp⟩
  exact ⟨hnone, sortC_eq_of_none w c hnone⟩

/-- Witness for the amended claim C6 at the concrete self-referencing state
`cSelfRef`. -/
theorem c6_witness :
    (0 ∈ cSelfRef.data.map Prod.fst ∧
      elemB (WSelfRef.concrete 0)
        (lookupA cSelfRef.dependencies (WSelfRef.concrete 0)) = true) ∧
    (sortLoop WSelfRef cSelfRef.dependencies (cSelfRef.data.map Prod.fst)
        ((cSelfRef.data.map Prod.fst).length + 1) [] [] = none ∧
      Collector.sortC WSelfRef cSelfRef = cSelfRef) :=
  ⟨⟨by decide, by decide⟩,
    c6_self_edge_sort_aborts WSelfRef cSelfRef 0 (by decide) (by decide)⟩

/-! ## Claim C7 -/

/-- `setA` keeps a key that was already present. -/
theorem hasKey_setA_self {d : List (Nat × List Nat)} {k : Nat} {v : List Nat}
    (h : hasKey d k = true) : hasKey (setA d k v) k = true := by
  rw [hasKey_iff, keys_setA_of_hasKey h, ← hasKey_iff]
  exact h

/-- Claim C7 (confirmed).  Whenever a dependency edge is recorded, the
dependency-target table is a key of `self.data`: a direct
`add_dependency(m, d)` call guarantees `d` is a key (bound to its previous
bucket, the empty bucket when fresh) without changing any bucket, an `add`
call with a source and a non-nullable relation guarantees the target table
(the class of the records) is a key, and `sort` — succeeding or not — keeps
exactly the same set of keys, so a table named only as a dependency target
appears in the final mapping, possibly with an empty list. -/
theorem c7_dependency_target_key (w : World) (c : Collector) (m d : MId) :
    (hasKey ((Collector.addDependency w c m d false).data) d = true ∧
      ∀ k, lookupA ((Collector.addDependency w c m d false).data) k =
        lookupA c.data k) ∧
    (∀ (o0 : Oid) (rest : List Oid) (s : MId) (rd : Bool),
      hasKey ((Collector.add w c (o0 :: rest) (some s) false rd).2).data
        (w.cls o0) = true) ∧
    (∀ k, k ∈ (Collector.sortC w c).data.map Prod.fst ↔
      k ∈ c.data.map Prod.fst) := by
  refine ⟨⟨?_, ?_⟩, ?_, ?_⟩
  · show hasKey (ensureKey c.data d) d = true
    exact hasKey_ensureKey_self
  · intro k
    show lookupA (ensureKey c.data d) k = lookupA c.data k
    exact lookupA_ensureKey
  · intro o0 rest s rd
    simp only [Collector.add, Collector.addDependency]
    cases rd with
    | false =>
      simp only [Bool.false_eq_true, if_false]
      exact hasKey_ensureKey_self
    | true =>
      simp only [if_true]
      exact hasKey_ensureKey_mono (hasKey_setA_self hasKey_ensureKey_self)
  · intro k
    rcases hres : sortLoop w c.dependencies (c.data.map Prod.fst)
        ((c.data.map Prod.fst).length + 1) [] [] with _ | out
    · rw [sortC_eq_of_none w c hres]
    · obtain ⟨hdata, _, _, hperm, _⟩ := sortC_some_spec w c out hres
      rw [hdata, List.map_map]
      have hid : (Prod.fst ∘ fun m2 : MId => (m2, lookupA c.data m2)) = id := rfl
      rw [hid, List.map_id]
      exact hperm.mem_iff

/-! ## State invariants of collection -/

/-- All records passed in one `add`/`collect` batch share one model
(`objs` must be a homogeneous iterable collection, per the docstrings). -/
def Hom (w : World) (objs : List Oid) : Prop :=
  ∀ o1 ∈ objs, ∀ o2 ∈ objs, w.cls o1 = w.cls o2

/-- The FK fields of a model always reference records of the field's fixed
related model (Django schema reflection). -/
def TargetsWF (w : World) : Prop :=
  ∀ o f y, w.ref o f = some y → w.cls y = w.fkTarget (w.cls o) f

/-- The keys of `self.data` are pairwise distinct (a dictionary). -/
def KeysNodup (c : Collector) : Prop := (c.data.map Prod.fst).Nodup

/-- Every record sits in the bucket of its own class. -/
def BucketsHom (w : World) (c : Collector) : Prop :=
  ∀ m, ∀ x ∈ lookupA c.data m, w.cls x = m

/-- Every recorded dependency target is the concrete model of some `data`
key (`add_dependency` setdefaults the target into `data`). -/
def DepClosure (w : World) (c : Collector) : Prop :=
  ∀ k dc, elemB dc (lookupA c.dependencies k) = true →
    ∃ m2, hasKey c.data m2 = true ∧ w.concrete m2 = dc

theorem add_keys_false (w : World) (c : Collector) (o0 : Oid) (rest : List Oid)
    (src : Option MId) (nl : Bool) :
    ((Collector.add w c (o0 :: rest) src nl false).2).data.map Prod.fst =
      (ensureKey c.data (w.cls o0)).map Prod.fst := by
  have hsetA : ∀ v, (setA (ensureKey c.data (w.cls o0)) (w.cls o0) v).map Prod.fst =
      (ensureKey c.data (w.cls o0)).map Prod.fst :=
    fun v => keys_setA_of_hasKey hasKey_ensureKey_self
  have hsetAkey : ∀ v, hasKey (setA (ensureKey c.data (w.cls o0)) (w.cls o0) v)
      (w.cls o0) = true :=
    fun v => hasKey_setA_self hasKey_ensureKey_self
  rcases src with _ | s <;> cases nl <;>
    simp only [Collector.add, Collector.addDependency, Bool.false_eq_true,
      if_false, if_true, keys_ensureKey_of_hasKey (hsetAkey _), hsetA]

theorem add_keysNodup (w : World) (c : Collector) (objs : List Oid)
    (src : Option MId) (nl : Bool) (h : KeysNodup c) :
    KeysNodup ((Collector.add w c objs src nl false).2) := by
  rcases objs with _ | ⟨o0, rest⟩
  · exact h
  · unfold KeysNodup
    rw [add_keys_false]
    exact nodup_keys_ensureKey h

theorem add_hasKey_mono (w : World) (c : Collector) (objs : List Oid)
    (src : Option MId) (nl : Bool) (m : MId) (h : hasKey c.data m = true) :
    hasKey ((Collector.add w c objs src nl false).2).data m = true := by
  rcases objs with _ | ⟨o0, rest⟩
  · exact h
  · rw [hasKey_iff, add_keys_false, ← hasKey_iff]
    exact hasKey_ensureKey_mono h

theorem add_hasKey_model (w : World) (c : Collector) (o0 : Oid) (rest : List Oid)
    (src : Option MId) (nl : Bool) :
    hasKey ((Collector.add w c (o0 :: rest) src nl false).2).data (w.cls o0) = true := by
  rw [hasKey_iff, add_keys_false, ← hasKey_iff]
  exact hasKey_ensureKey_self

theorem add_new_subset (w : World) (c : Collector) (o0 : Oid) (rest : List Oid)
    (src : Option MId) (nl rd : Bool) :
    ∀ x ∈ (Collector.add w c (o0 :: rest) src nl rd).1, x ∈ o0 :: rest := by
  intro x hx
  rw [add_fst] at hx
  exact (List.mem_filter.mp hx).1

theorem add_bucketsHom (w : World) (c : Collector) (objs : List Oid)
    (src : Option MId) (nl rd : Bool) (hhom : Hom w objs)
    (hb : BucketsHom w c) :
    BucketsHom w ((Collector.add w c objs src nl rd).2) := by
  rcases objs with _ | ⟨o0, rest⟩
  · exact hb
  · intro m x hx
    rw [add_data_lookup] at hx
    by_cases hm : m = w.cls o0
    · rw [if_pos hm] at hx
      rcases List.mem_append.mp hx with hx2 | hx2
      · exact hb m x hx2
      · rw [hm]
        exact hhom x (add_new_subset w c o0 rest src nl rd x hx2) o0 (by simp)
    · rw [if_neg hm] at hx
      exact hb m x hx

theorem elemB_depAdd_mono {d : List (Nat × List Nat)} {k v k2 dc : Nat}
    (h : elemB dc (lookupA d k2) = true) :
    elemB dc (lookupA (depAdd d k v) k2) = true := by
  by_cases hk : k2 = k
  · subst hk
    rw [lookupA_depAdd_self, elemB_iff]
    exact mem_setInsert.mpr (Or.inr (elemB_iff.mp h))
  · rw [lookupA_depAdd_other hk]
    exact h

theorem elemB_depAdd_self {d : List (Nat × List Nat)} {k v : Nat} :
    elemB v (lookupA (depAdd d k v) k) = true := by
  rw [lookupA_depAdd_self, elemB_iff]
  exact mem_setInsert.mpr (Or.inl rfl)

theorem add_deps_elem_mono (w : World) (c : Collector) (objs : List Oid)
    (src : Option MId) (nl : Bool) (k dc : Nat)
    (h : elemB dc (lookupA c.dependencies k) = true) :
    elemB dc (lookupA ((Collector.add w c objs src nl false).2).dependencies k) =
      true := by
  rcases objs with _ | ⟨o0, rest⟩
  · exact h
  · rcases src with _ | s
    · rw [add_deps_none]; exact h
    · cases nl
      · rw [add_deps_some]; exact elemB_depAdd_mono h
      · rw [add_deps_nullable]; exact h

theorem add_depClosure (w : World) (c : Collector) (objs : List Oid)
    (src : Option MId) (nl : Bool) (hd : DepClosure w c) :
    DepClosure w ((Collector.add w c objs src nl false).2) := by
  rcases objs with _ | ⟨o0, rest⟩
  · exact hd
  · intro k dc hdc
    have lift : (∃ m2, hasKey c.data m2 = true ∧ w.concrete m2 = dc) →
        ∃ m3, hasKey ((Collector.add w c (o0 :: rest) src nl false).2).data m3 =
          true ∧ w.concrete m3 = dc := by
      rintro ⟨m2, hk2, hc2⟩
      exact ⟨m2, add_hasKey_mono w c (o0 :: rest) src nl m2 hk2, hc2⟩
    rcases src with _ | s
    · rw [add_deps_none] at hdc
      exact lift (hd k dc hdc)
    · cases nl with
      | false =>
        rw [add_deps_some] at hdc
        by_cases hk : k = w.concrete s
        · subst hk
          rw [lookupA_depAdd_self] at hdc
          rcases mem_setInsert.mp (elemB_iff.mp hdc) with rfl | hold
          · exact ⟨w.cls o0, add_hasKey_model w c o0 rest (some s) false, rfl⟩
          · exact lift (hd _ dc (elemB_iff.mpr hold))
        · rw [lookupA_depAdd_other hk] at hdc
          exact lift (hd k dc hdc)
      | true =>
        rw [add_deps_nullable] at hdc
        exact lift (hd k dc hdc)

theorem collect_deps_mono (w : World) :
    ∀ (fuel : Nat) (c : Collector) (objs : List Oid) (src : Option MId)
      (nl : Bool) (c2 : Collector),
      Collector.collect w fuel c objs src nl = Except.ok c2 →
      ∀ k dc, elemB dc (lookupA c.dependencies k) = true →
        elemB dc (lookupA c2.dependencies k) = true := by
  intro fuel
  induction fuel with
  | zero =>
    intro c objs src nl c2 h
    simp [Collector.collect] at h
  | succ fuel ih =>
    intro c objs src nl c2 h k dc hdc
    unfold Collector.collect at h
    rcases hadd : Collector.add w c objs src nl false with ⟨new, c1⟩
    rw [hadd] at h
    have hd1 : elemB dc (lookupA c1.dependencies k) = true := by
      have h2 := add_deps_elem_mono w c objs src nl k dc hdc
      rw [hadd] at h2
      exact h2
    split at h
    · rename_i c1b heq
      simp only [Prod.mk.injEq] at heq
      obtain ⟨rfl, rfl⟩ := heq
      simp only [Except.ok.injEq] at h
      subst h
      exact hd1
    · rename_i o news c1b heq
      simp only [Prod.mk.injEq] at heq
      obtain ⟨rfl, rfl⟩ := heq
      dsimp only at h
      split at h
      · simp only [Except.ok.injEq] at h
        subst h
        exact hd1
      · rename_i f frest heq2
        split at h
        · simp at h
        · rename_i c3 heq3
          split at h
          · simp only [Except.ok.injEq] at h
            subst h
            exact ih c1 _ (some (w.cls o)) false _ heq3 k dc hd1
          · simp at h

theorem add_data_prefix (w : World) (c : Collector) (objs : List Oid)
    (src : Option MId) (nl rd : Bool) (m : MId) :
    ∃ t, lookupA ((Collector.add w c objs src nl rd).2).data m =
      lookupA c.data m ++ t := by
  rcases objs with _ | ⟨o0, rest⟩
  · exact ⟨[], by simp [add_nil]⟩
  · rw [add_data_lookup]
    by_cases hm : m = w.cls o0
    · exact ⟨_, by rw [if_pos hm]⟩
    · exact ⟨[], by rw [if_neg hm, List.append_nil]⟩

theorem collect_data_mono (w : World) :
    ∀ (fuel : Nat) (c : Collector) (objs : List Oid) (src : Option MId)
      (nl : Bool) (c2 : Collector),
      Collector.collect w fuel c objs src nl = Except.ok c2 →
      ∀ m, ∃ t, lookupA c2.data m = lookupA c.data m ++ t := by
  intro fuel
  induction fuel with
  | zero =>
    intro c objs src nl c2 h
    simp [Collector.collect] at h
  | succ fuel ih =>
    intro c objs src nl c2 h m
    unfold Collector.collect at h
    rcases hadd : Collector.add w c objs src nl false with ⟨new, c1⟩
    rw [hadd] at h
    obtain ⟨t1, ht1⟩ : ∃ t, lookupA c1.data m = lookupA c.data m ++ t := by
      have h2 := add_data_prefix w c objs src nl false m
      rw [hadd] at h2
      exact h2
    split at h
    · rename_i c1b heq
      simp only [Prod.mk.injEq] at heq
      obtain ⟨rfl, rfl⟩ := heq
      simp only [Except.ok.injEq] at h
      subst h
      exact ⟨t1, ht1⟩
    · rename_i o news c1b heq
      simp only [Prod.mk.injEq] at heq
      obtain ⟨rfl, rfl⟩ := heq
      dsimp only at h
      split at h
      · simp only [Except.ok.injEq] at h
        subst h
        exact ⟨t1, ht1⟩
      · rename_i f frest heq2
        split at h
        · simp at h
        · rename_i c3 heq3
          split at h
          · simp only [Except.ok.injEq] at h
            subst h
            obtain ⟨t2, ht2⟩ := ih c1 _ (some (w.cls o)) false _ heq3 m
            exact ⟨t1 ++ t2, by rw [ht2, ht1, List.append_assoc]⟩
          · simp at h

theorem collect_hasKey_mono (w : World) :
    ∀ (fuel : Nat) (c : Collector) (objs : List Oid) (src : Option MId)
      (nl : Bool) (c2 : Collector),
      Collector.collect w fuel c objs src nl = Except.ok c2 →
      ∀ m, hasKey c.data m = true → hasKey c2.data m = true := by
  intro fuel
  induction fuel with
  | zero =>
    intro c objs src nl c2 h
    simp [Collector.collect] at h
  | succ fuel ih =>
    intro c objs src nl c2 h m hm
    unfold Collector.collect at h
    rcases hadd : Collector.add w c objs src nl false with ⟨new, c1⟩
    rw [hadd] at h
    have hm1 : hasKey c1.data m = true := by
      have h2 := add_hasKey_mono w c objs src nl m hm
      rw [hadd] at h2
      exact h2
    split at h
    · rename_i c1b heq
      simp only [Prod.mk.injEq] at heq
      obtain ⟨rfl, rfl⟩ := heq
      simp only [Except.ok.injEq] at h
      subst h
      exact hm1
    · rename_i o news c1b heq
      simp only [Prod.mk.injEq] at heq
      obtain ⟨rfl, rfl⟩ := heq
      dsimp only at h
      split at h
      · simp only [Except.ok.injEq] at h
        subst h
        exact hm1
      · rename_i f frest heq2
        split at h
        · simp at h
        · rename_i c3 heq3
          split at h
          · simp only [Except.ok.injEq] at h
            subst h
            exact ih c1 _ (some (w.cls o)) false _ heq3 m hm1
          · simp at h

theorem collect_first_edge (w : World) :
    ∀ (fuel : Nat) (c : Collector) (y0 : Oid) (ys : List Oid) (mu : MId)
      (c2 : Collector),
      Collector.collect w fuel c (y0 :: ys) (some mu) false = Except.ok c2 →
      elemB (w.concrete (w.cls y0)) (lookupA c2.dependencies (w.concrete mu)) =
        true := by
  intro fuel c y0 ys mu c2 h
  cases fuel with
  | zero => simp [Collector.collect] at h
  | succ fuel =>
    unfold Collector.collect at h
    rcases hadd : Collector.add w c (y0 :: ys) (some mu) false false with ⟨new, c1⟩
    rw [hadd] at h
    have hedge : elemB (w.concrete (w.cls y0))
        (lookupA c1.dependencies (w.concrete mu)) = true := by
      have h2 : ((Collector.add w c (y0 :: ys) (some mu) false false).2).dependencies =
          depAdd c.dependencies (w.concrete mu) (w.concrete (w.cls y0)) :=
        add_deps_some w c y0 ys mu
      rw [hadd] at h2
      rw [h2]
      exact elemB_depAdd_self
    split at h
    · rename_i c1b heq
      simp only [Prod.mk.injEq] at heq
      obtain ⟨rfl, rfl⟩ := heq
      simp only [Except.ok.injEq] at h
      subst h
      exact hedge
    · rename_i o news c1b heq
      simp only [Prod.mk.injEq] at heq
      obtain ⟨rfl, rfl⟩ := heq
      dsimp only at h
      split at h
      · simp only [Except.ok.injEq] at h
        subst h
        exact hedge
      · rename_i f frest heq2
        split at h
        · simp at h
        · rename_i c3 heq3
          split at h
          · simp only [Except.ok.injEq] at h
            subst h
            exact collect_deps_mono w fuel c1 _ (some (w.cls o)) false _ heq3
              (w.concrete mu) (w.concrete (w.cls y0)) hedge
          · simp at h

theorem collect_main (w : World) (htgt : TargetsWF w) :
    ∀ (fuel : Nat) (c : Collector) (objs : List Oid) (src : Option MId)
      (nl : Bool) (c2 : Collector),
      Collector.collect w fuel c objs src nl = Except.ok c2 →
      Hom w objs →
      KeysNodup c → BucketsHom w c → DepClosure w c →
      KeysNodup c2 ∧ BucketsHom w c2 ∧ DepClosure w c2 ∧
      ∀ m, ∀ x ∈ lookupA c2.data m, x ∈ lookupA c.data m ∨
        (∀ f ∈ w.fkFields (w.cls x), ∀ y, w.ref x f = some y →
          elemB (w.concrete (w.cls y))
            (lookupA c2.dependencies (w.concrete (w.cls x))) = true) := by
  intro fuel
  induction fuel with
  | zero =>
    intro c objs src nl c2 h
    simp [Collector.collect] at h
  | succ fuel ih =>
    intro c objs src nl c2 h hhom hkn hbh hdc
    rcases objs with _ | ⟨ob0, obrest⟩
    · unfold Collector.collect at h
      rw [add_nil w c src nl false] at h
      split at h
      · rename_i c1b heq
        simp only [Prod.mk.injEq] at heq
        obtain ⟨-, rfl⟩ := heq
        simp only [Except.ok.injEq] at h
        subst h
        exact ⟨hkn, hbh, hdc, fun m x hx => Or.inl hx⟩
      · rename_i o news c1b heq
        simp at heq
    · unfold Collector.collect at h
      rcases hadd : Collector.add w c (ob0 :: obrest) src nl false with ⟨new, c1⟩
      rw [hadd] at h
      have hnewsub : ∀ x ∈ new, x ∈ ob0 :: obrest := by
        have h2 := add_new_subset w c ob0 obrest src nl false
        rw [hadd] at h2
        exact h2
      have hbucket : ∀ m, lookupA c1.data m =
          if m = w.cls ob0 then lookupA c.data m ++ new else lookupA c.data m := by
        intro m
        have h2 := add_data_lookup w c ob0 obrest src nl false m
        rw [hadd] at h2
        exact h2
      have hkn1 : KeysNodup c1 := by
        have h2 := add_keysNodup w c (ob0 :: obrest) src nl hkn
        rw [hadd] at h2
        exact h2
      have hbh1 : BucketsHom w c1 := by
        have h2 := add_bucketsHom w c (ob0 :: obrest) src nl false hhom hbh
        rw [hadd] at h2
        exact h2
      have hdc1 : DepClosure w c1 := by
        have h2 := add_depClosure w c (ob0 :: obrest) src nl hdc
        rw [hadd] at h2
        exact h2
      split at h
      · rename_i c1b heq
        simp only [Prod.mk.injEq] at heq
        obtain ⟨hne, rfl⟩ := heq
        subst hne
        simp only [Except.ok.injEq] at h
        subst h
        refine ⟨hkn1, hbh1, hdc1, ?_⟩
        intro m x hx
        left
        rw [hbucket m] at hx
        by_cases hm : m = w.cls ob0
        · rw [if_pos hm, List.append_nil] at hx
          exact hx
        · rw [if_neg hm] at hx
          exact hx
      · rename_i o news c1b heq
        simp only [Prod.mk.injEq] at heq
        obtain ⟨hne, rfl⟩ := heq
        subst hne
        dsimp only at h
        split at h
        · rename_i heq2
          simp only [Except.ok.injEq] at h
          subst h
          refine ⟨hkn1, hbh1, hdc1, ?_⟩
          intro m x hx
          rw [hbucket m] at hx
          by_cases hm : m = w.cls ob0
          · rw [if_pos hm] at hx
            rcases List.mem_append.mp hx with hold | hnew2
            · exact Or.inl hold
            · right
              intro f2 hf2 y hy
              have hclsxo : w.cls x = w.cls o :=
                hhom x (hnewsub x hnew2) o (hnewsub o (by simp))
              rw [hclsxo, heq2] at hf2
              exact absurd hf2 (List.not_mem_nil f2)
          · rw [if_neg hm] at hx
            exact Or.inl hx
        · rename_i f frest heq2
          split at h
          · simp at h
          · rename_i c3 heq3
            split at h
            · rename_i hfr
              simp only [Except.ok.injEq] at h
              subst h
              have hfrnil : frest = [] := by
                cases frest with
                | nil => rfl
                | cons a b => simp [List.isEmpty] at hfr
              subst hfrnil
              have hhomL : Hom w ((o :: news).filterMap (fun x => w.ref x f)) := by
                intro y1 hy1 y2 hy2
                obtain ⟨x1, hx1, hry1⟩ := List.mem_filterMap.mp hy1
                obtain ⟨x2, hx2, hry2⟩ := List.mem_filterMap.mp hy2
                rw [htgt x1 f y1 hry1, htgt x2 f y2 hry2,
                  hhom x1 (hnewsub x1 hx1) x2 (hnewsub x2 hx2)]
              obtain ⟨hkn3, hbh3, hdc3, hper⟩ :=
                ih c1 _ (some (w.cls o)) false _ heq3 hhomL hkn1 hbh1 hdc1
              refine ⟨hkn3, hbh3, hdc3, ?_⟩
              intro m x hx
              rcases hper m x hx with hin1 | hedges
              · rw [hbucket m] at hin1
                by_cases hm : m = w.cls ob0
                · rw [if_pos hm] at hin1
                  rcases List.mem_append.mp hin1 with hold | hnew2
                  · exact Or.inl hold
                  · right
                    intro f2 hf2 y hy
                    have hclsxo : w.cls x = w.cls o :=
                      hhom x (hnewsub x hnew2) o (hnewsub o (by simp))
                    rw [hclsxo, heq2] at hf2
                    have hf2f : f2 = f := by simpa using hf2
                    rw [hf2f] at hy
                    have hyL : y ∈ (o :: news).filterMap (fun x2 => w.ref x2 f) :=
                      List.mem_filterMap.mpr ⟨x, hnew2, hy⟩
                    rcases hL : (o :: news).filterMap (fun x2 => w.ref x2 f) with
                      _ | ⟨y0, ys⟩
                    · rw [hL] at hyL
                      exact absurd hyL (List.not_mem_nil y)
                    · rw [hL] at heq3
                      have hedge := collect_first_edge w fuel c1 y0 ys (w.cls o)
                        _ heq3
                      have hy0L : y0 ∈ (o :: news).filterMap
                          (fun x2 => w.ref x2 f) := by
                        rw [hL]
                        exact List.mem_cons_self y0 ys
                      obtain ⟨x0, hx0, hry0⟩ := List.mem_filterMap.mp hy0L
                      have hclsy : w.cls y = w.cls y0 := by
                        rw [htgt x f y hy, htgt x0 f y0 hry0,
                          hhom x (hnewsub x hnew2) x0 (hnewsub x0 hx0)]
                      rw [hclsxo, hclsy]
                      exact hedge
                · rw [if_neg hm] at hin1
                  exact Or.inl hin1
              · exact Or.inr hedges
            · simp at h

/-! ## Claim C1, amended -/

/-- Claim C1 (amended).  For every finite set of homogeneous pending records
that `collect` (run on a fresh collector) processes without raising, if the
table-level graph of ALL recorded reference edges admits a rank function that
strictly decreases along every edge (acyclicity of the full recorded graph —
`collect` records an edge for every followed reference, nullable fields
included), then `sort` fully orders the tables: the table keys of the result
are a permutation of the collected ones, every bucket is bound to the
identical record list, and every table appears after all tables whose records
its collected records reference — in particular after every table it
non-nullably depends on. -/
theorem c1_collect_sort_orders_dependencies (w : World) (fuel : Nat)
    (roots : List Oid) (c : Collector) (rank : MId → Nat)
    (htgt : TargetsWF w)
    (hroots : Hom w roots)
    (hok : Collector.collect w fuel Collector.empty roots none false =
      Except.ok c)
    (hacy : ∀ k dc, elemB dc (lookupA c.dependencies k) = true →
      rank dc < rank k) :
    List.Perm ((Collector.sortC w c).data.map Prod.fst) (c.data.map Prod.fst) ∧
    (∀ m, lookupA (Collector.sortC w c).data m = lookupA c.data m) ∧
    (∀ pre mkey post,
      (Collector.sortC w c).data.map Prod.fst = pre ++ mkey :: post →
      ∀ x ∈ lookupA c.data mkey, ∀ f ∈ w.fkFields (w.cls x), ∀ y,
        w.ref x f = some y →
        ∃ m2 ∈ pre, w.concrete m2 = w.concrete (w.cls y)) := by
  obtain ⟨hkn, hbh, hdc, hper⟩ := collect_main w htgt fuel Collector.empty
    roots none false c hok hroots
    (by simp [KeysNodup, Collector.empty])
    (by intro m x hx; simp [Collector.empty, lookupA] at hx)
    (by intro k dc h2; simp [Collector.empty, lookupA, elemB] at h2)
  have hclos : ∀ m ∈ c.data.map Prod.fst, ∀ dc,
      elemB dc (lookupA c.dependencies (w.concrete m)) = true →
      ∃ m2 ∈ c.data.map Prod.fst, w.concrete m2 = dc := by
    intro m _ dc h2
    obtain ⟨m2, hk2, hc2⟩ := hdc (w.concrete m) dc h2
    exact ⟨m2, hasKey_iff.mp hk2, hc2⟩
  have hrank2 : ∀ m ∈ c.data.map Prod.fst, ∀ dc,
      elemB dc (lookupA c.dependencies (w.concrete m)) = true →
      rank dc < rank (w.concrete m) :=
    fun m _ dc h2 => hacy _ dc h2
  obtain ⟨out, hout⟩ := sortLoop_success w c.dependencies
    (c.data.map Prod.fst) rank hclos hrank2 hkn
    ((c.data.map Prod.fst).length + 1) [] []
    (sortInv_init w c.dependencies (c.data.map Prod.fst)) (by omega)
  obtain ⟨hdata, hdeps, hlog, hperm, ⟨conc2, hinv⟩⟩ := sortC_some_spec w c out hout
  have hkeys : (Collector.sortC w c).data.map Prod.fst = out := by
    rw [hdata, List.map_map]
    have hid : (Prod.fst ∘ fun m2 : MId => (m2, lookupA c.data m2)) = id := rfl
    rw [hid, List.map_id]
  refine ⟨by rw [hkeys]; exact hperm, ?_, ?_⟩
  · intro m
    rw [hdata, lookupA_map_lookup]
    by_cases hm : m ∈ out
    · rw [if_pos hm]
    · rw [if_neg hm]
      have hnm : m ∉ c.data.map Prod.fst := fun hc2 => hm (hperm.mem_iff.mpr hc2)
      have hnk : hasKey c.data m = false := by
        cases hk : hasKey c.data m with
        | false => rfl
        | true => exact absurd (hasKey_iff.mp hk) hnm
      exact (lookupA_eq_nil_of_not_hasKey hnk).symm
  · intro pre mkey post hdec x hx f hf y hy
    rcases hper mkey x hx with hin0 | hedges
    · simp [Collector.empty, lookupA] at hin0
    · have hclsx : w.cls x = mkey := hbh mkey x hx
      have hedge := hedges f hf y hy
      rw [hclsx] at hedge
      rw [hkeys] at hdec
      exact hinv.ord pre mkey post hdec (w.concrete (w.cls y)) hedge

/-- A topological rank for the dependency graph of `cChain`. -/
def rankChain : MId → Nat := fun k => if k = 0 then 1 else 0

theorem wchain_targets : TargetsWF WChain := by
  intro o f y h
  simp only [WChain] at h
  split at h
  · rename_i hcond
    simp only [Bool.and_eq_true, decide_eq_true_eq] at hcond
    obtain ⟨rfl, rfl⟩ := hcond
    simp only [Option.some.injEq] at h
    subst h
    rfl
  · cases h

theorem wchain_rank : ∀ k dc, elemB dc (lookupA cChain.dependencies k) = true →
    rankChain dc < rankChain k := by
  intro k dc h
  by_cases hk : k = 0
  · subst hk
    have h2 : elemB dc [1] = true := h
    by_cases hdc : dc = 1
    · subst hdc
      decide
    · simp [elemB, hdc] at h2
  · unfold cChain lookupA at h
    rw [if_neg (fun he => hk he.symm)] at h
    simp [lookupA, elemB] at h

/-- Witness for the amended claim C1 on the two-table chain `WChain`
(`r1 : R` non-nullably references `p1 : P`): collect succeeds, the recorded
graph is ranked, and `sort` puts `P`'s bucket before `R`'s. -/
theorem c1_witness :
    (TargetsWF WChain ∧ Hom WChain [1] ∧
      Collector.collect WChain 5 Collector.empty [1] none false =
        Except.ok cChain ∧
      (∀ k dc, elemB dc (lookupA cChain.dependencies k) = true →
        rankChain dc < rankChain k)) ∧
    (List.Perm ((Collector.sortC WChain cChain).data.map Prod.fst)
        (cChain.data.map Prod.fst) ∧
      (∀ m, lookupA (Collector.sortC WChain cChain).data m =
        lookupA cChain.data m) ∧
      (∀ pre mkey post,
        (Collector.sortC WChain cChain).data.map Prod.fst =
          pre ++ mkey :: post →
        ∀ x ∈ lookupA cChain.data mkey, ∀ f ∈ WChain.fkFields (WChain.cls x),
          ∀ y, WChain.ref x f = some y →
          ∃ m2 ∈ pre, WChain.concrete m2 = WChain.concrete (WChain.cls y))) :=
  ⟨⟨wchain_targets, by unfold Hom; decide, rfl, wchain_rank⟩,
    c1_collect_sort_orders_dependencies WChain 5 [1] cChain rankChain
      wchain_targets (by unfold Hom; decide) rfl wchain_rank⟩

/-! ## mute_signals -/

/-- The observable state of a set of wrapped Django signals: each signal's
`receivers` list.  (The `sender_receivers_cache` cleared by both `__exit__`
implementations is an internal memoisation of dispatch over `receivers` and
has no further observable role in the modelled behaviour.) -/
structure SigWorld where
  sigs : List (List Nat)
deriving DecidableEq

/-- `mute_signals.__enter__`: save every wrapped signal's receivers into
`self.paused` (in signal order) and replace each receiver list by `[]`. -/
def muteEnter (sw : SigWorld) : SigWorld × List (List Nat) :=
  (⟨sw.sigs.map (fun _ => [])⟩, sw.sigs)

/-- `Signal.send` over a publication sequence: each send notifies exactly the
receivers currently connected to that signal and changes no receiver list;
the result collects the delivered (signal, receiver) notifications. -/
def runPubs (sw : SigWorld) : List Nat → List (Nat × Nat)
  | [] => []
  | i :: rest => (sw.sigs.getD i []).map (fun r => (i, r)) ++ runPubs sw rest

/-- `mute_signals.__exit__` of `factory/django.py`:
`signal.receivers += receivers` appends the saved receivers to whatever the
signal currently holds. -/
def muteExitDjango (sw : SigWorld) (paused : List (List Nat)) : SigWorld :=
  ⟨List.zipWith (fun cur saved => cur ++ saved) sw.sigs paused⟩

/-- `mute_signals.__exit__` of `factory/django/utils.py`:
`signal.receivers = receivers` overwrites with exactly the saved receivers. -/
def muteExitUtils (sw : SigWorld) (paused : List (List Nat)) : SigWorld :=
  ⟨List.zipWith (fun _ saved => saved) sw.sigs paused⟩

/-- A `with mute_signals(...)` block around a body that publishes `pubs` and
then either returns normally or raises (`raised`): Python runs `__exit__` on
both exit paths, so the scope applies the exit handler unconditionally and
propagates the outcome flag. -/
def muteScope (exitFn : SigWorld → List (List Nat) → SigWorld) (sw : SigWorld)
    (pubs : List Nat) (raised : Bool) : List (Nat × Nat) × SigWorld × Bool :=
  let entered := muteEnter sw
  let notes := runPubs entered.1 pubs
  (notes, exitFn entered.1 entered.2, raised)

theorem getD_map_nil : ∀ (l : List (List Nat)) (i : Nat),
    (l.map (fun _ => ([] : List Nat))).getD i [] = [] := by
  intro l
  induction l with
  | nil => intro i; simp [List.getD]
  | cons s rest ih =>
    intro i
    cases i with
    | zero => rfl
    | succ j => exact ih j

theorem zip_restore_django (l : List (List Nat)) :
    List.zipWith (fun cur saved => cur ++ saved)
      (l.map (fun _ => ([] : List Nat))) l = l := by
  induction l with
  | nil => rfl
  | cons s rest ih =>
    simp only [List.map_cons, List.zipWith_cons_cons, List.nil_append, ih]

theorem zip_restore_utils (l : List (List Nat)) :
    List.zipWith (fun _ saved => saved)
      (l.map (fun _ => ([] : List Nat))) l = l := by
  induction l with
  | nil => rfl
  | cons s rest ih =>
    simp only [List.map_cons, List.zipWith_cons_cons, ih]

theorem runPubs_muted (sw : SigWorld) : ∀ pubs : List Nat,
    runPubs (muteEnter sw).1 pubs = [] := by
  intro pubs
  induction pubs with
  | nil => rfl
  | cons i rest ih =>
    unfold runPubs
    rw [ih, List.append_nil]
    show ((sw.sigs.map (fun _ => [])).getD i []).map (fun r => (i, r)) = []
    rw [getD_map_nil]
    rfl

/-- Claim C9 (confirmed).  Inside a `mute_signals` scope no receiver that was
registered at entry is notified of any published event (indeed no
notification is delivered at all, since every wrapped signal's receiver list
is emptied on entry and publication does not repopulate it), and on every
exit path — normal return or exception, both of which run `__exit__` — every
receiver registered at entry is back in its signal's receiver list, under
both the `factory/django.py` implementation (`receivers += saved`) and the
`factory/django/utils.py` implementation (`receivers = saved`). -/
theorem c9_mute_signals_scope (sw : SigWorld) (pubs : List Nat) (raised : Bool) :
    (muteScope muteExitDjango sw pubs raised).1 = [] ∧
    (muteScope muteExitUtils sw pubs raised).1 = [] ∧
    (∀ i r, r ∈ sw.sigs.getD i [] →
      r ∈ ((muteScope muteExitDjango sw pubs raised).2.1).sigs.getD i []) ∧
    (∀ i r, r ∈ sw.sigs.getD i [] →
      r ∈ ((muteScope muteExitUtils sw pubs raised).2.1).sigs.getD i []) := by
  have hdj : ((muteScope muteExitDjango sw pubs raised).2.1).sigs = sw.sigs := by
    show (List.zipWith (fun cur saved => cur ++ saved)
      (sw.sigs.map (fun _ => [])) sw.sigs) = sw.sigs
    exact zip_restore_django sw.sigs
  have hut : ((muteScope muteExitUtils sw pubs raised).2.1).sigs = sw.sigs := by
    show (List.zipWith (fun _ saved => saved)
      (sw.sigs.map (fun _ => [])) sw.sigs) = sw.sigs
    exact zip_restore_utils sw.sigs
  refine ⟨runPubs_muted sw pubs, runPubs_muted sw pubs, ?_, ?_⟩
  · intro i r hr
    rw [hdj]
    exact hr
  · intro i r hr
    rw [hut]
    exact hr

/-- Witness for claim C9: one signal with the single receiver 7, one
published event, exiting by exception; nothing is notified and 7 is restored
by both implementations. -/
theorem c9_witness :
    (7 ∈ (SigWorld.mk [[7]]).sigs.getD 0 []) ∧
    ((muteScope muteExitDjango ⟨[[7]]⟩ [0] true).1 = [] ∧
      (muteScope muteExitUtils ⟨[[7]]⟩ [0] true).1 = [] ∧
      7 ∈ ((muteScope muteExitDjango ⟨[[7]]⟩ [0] true).2.1).sigs.getD 0 [] ∧
      7 ∈ ((muteScope muteExitUtils ⟨[[7]]⟩ [0] true).2.1).sigs.getD 0 []) :=
  ⟨by decide,
    (c9_mute_signals_scope ⟨[[7]]⟩ [0] true).1,
    (c9_mute_signals_scope ⟨[[7]]⟩ [0] true).2.1,
    (c9_mute_signals_scope ⟨[[7]]⟩ [0] true).2.2.1 0 7 (by decide),
    (c9_mute_signals_scope ⟨[[7]]⟩ [0] true).2.2.2 0 7 (by decide)⟩
